import Mathlib

/-!
# Verification of the filter-state synchronization engine

A shallow embedding of the core of the `composable` repository
(`src/useFilter.ts`, `src/useSigner.ts`) together with proofs about it.

Modelling conventions:

* JS values flowing through the untyped runtime are modelled by the
  inductive `Value` (strings, numbers, booleans, `null`, `undefined`,
  arrays, plain objects as ordered association lists).
* JS numbers are modelled by `ℚ`. Executable definitions construct
  rationals only through `mkRat` / `Neg.neg` on integer arithmetic so that
  every definition evaluates inside the kernel. String rendering
  (`String()`) is the plain decimal rendering, faithful for numbers with a
  finite decimal expansion.
* `encodeURIComponent` / `decodeURIComponent` are modelled at the
  character level with genuine UTF-8 percent-escaping (the set of
  unreserved characters is the one of the ECMAScript spec).
* `URLSearchParams` is external platform code; it is modelled as an
  ordered list of raw key/value pairs (`Query`) with `set`-semantics.
  Its wire serialization (`toString`/parse, i.e. form-urlencoding) is a
  platform-guaranteed bijection and is treated as the identity boundary.
* `isNumeric` comes from the external `@v-termeh/utils` package (not part
  of this repository); it is modelled from the spec's words: a string
  matching a plain decimal numeric-literal grammar, evaluated exactly.
* The SHA-256 digest of the signer is implemented concretely, bit by bit,
  over `Nat` arithmetic modulo `2 ^ 32`.
* The store's `apply` (an async function guarded by a lock and a
  try/finally) is modelled as a pure state-transition function returning
  the new state together with its observable effects (callback firing,
  storage writes, promise resolution/rejection).
-/

/-! ## Character and list utilities -/

/-- Split a character list at every occurrence of `sep` (JS `String.split`
semantics: separators delimit possibly-empty chunks, `[]` yields one empty
chunk). -/
def splitCh (sep : Char) : List Char → List (List Char)
  | [] => [[]]
  | c :: cs =>
    if c = sep then [] :: splitCh sep cs
    else
      match splitCh sep cs with
      | [] => [[c]]
      | h :: t => (c :: h) :: t

/-- Interleave `sep` between the chunks (JS `Array.join`). -/
def interCh (sep : Char) : List (List Char) → List Char
  | [] => []
  | [p] => p
  | p :: ps => p ++ sep :: interCh sep ps

/-- Model of the JS whitespace class used by `String.trim`. -/
def isWs (c : Char) : Bool := c.toNat = 32 || (9 ≤ c.toNat && c.toNat ≤ 13)

/-- Trim whitespace from both ends of a character list (JS `trim`). -/
def trimCh (l : List Char) : List Char :=
  ((l.dropWhile isWs).reverse.dropWhile isWs).reverse

/-- JS `String.includes` for a single-character needle. -/
def sContains (s : String) (c : Char) : Bool := s.data.contains c

/-- JS `String.split` with a single-character separator. -/
def sSplit (sep : Char) (s : String) : List String :=
  (splitCh sep s.data).map (fun l => ⟨l⟩)

/-- JS `Array.join` with a single-character separator. -/
def sInter (sep : Char) (parts : List String) : String :=
  ⟨interCh sep (parts.map String.data)⟩

/-- JS `String.trim`. -/
def sTrim (s : String) : String := ⟨trimCh s.data⟩

/-! ## Decimal digits -/

/-- The character of a decimal digit. -/
def digitToCh (n : Nat) : Char := Char.ofNat (48 + n)

/-- Decimal rendering of a natural number, most significant digit first
(fueled so that the definition is structurally recursive and evaluates in
the kernel). -/
def natToChsF : Nat → Nat → List Char
  | 0, _ => []
  | f + 1, n => if n < 10 then [digitToCh n] else natToChsF f (n / 10) ++ [digitToCh (n % 10)]

/-- Decimal rendering of a natural number. -/
def natToChs (n : Nat) : List Char := natToChsF (n + 1) n

/-- Numeric value of a list of decimal digit characters. -/
def digitsVal (l : List Char) : Nat := l.foldl (fun a c => a * 10 + (c.toNat - 48)) 0

/-! ## Factor counting (for finite decimal expansions) -/

/-- Multiplicity of the factor `p` in `n`, fueled. -/
def countFacF : Nat → Nat → Nat → Nat
  | 0, _, _ => 0
  | f + 1, p, n => if 2 ≤ p ∧ n ≠ 0 ∧ n % p = 0 then countFacF f p (n / p) + 1 else 0

/-- Multiplicity of the factor `p` in `n`. -/
def countFac (p n : Nat) : Nat := countFacF (n + 1) p n

/-! ## JS number rendering and the numeric-literal grammar

Modelled from the spec: the codec's type inference turns "a string
matching a numeric-literal grammar" into a number (the underlying
`isNumeric` lives in the external `@v-termeh/utils` package). The grammar
here is the plain decimal one: an optional minus sign, an integer part,
and an optional fractional part. -/

/-- Denominators with only factors 2 and 5 give finite decimal
expansions; `isDecimalB q` decides whether `q` prints exactly. -/
def isDecimalB (q : ℚ) : Bool :=
  2 ^ countFac 2 q.den * 5 ^ countFac 5 q.den == q.den

/-- Left-pad the decimal rendering of `x` with zeros to width `e`. -/
def padDigits (e x : Nat) : List Char :=
  List.replicate (e - (natToChs x).length) '0' ++ natToChs x

/-- The decimal exponent of a denominator with only factors 2 and 5. -/
def decExp (d : Nat) : Nat := max (countFac 2 d) (countFac 5 d)

/-- Unsigned decimal rendering of the fraction `N / d`. -/
def numToStringPos (N d : Nat) : List Char :=
  let e := decExp d
  let m := N * 10 ^ e / d
  if e = 0 then natToChs m else natToChs (m / 10 ^ e) ++ '.' :: padDigits e (m % 10 ^ e)

/-- Model of JS `String()` on a number: plain decimal rendering (exact for
numbers with a finite decimal expansion). -/
def numToString (q : ℚ) : String :=
  ⟨(if q.num < 0 then ['-'] else []) ++ numToStringPos q.num.natAbs q.den⟩

/-- Parse an unsigned decimal literal (`digits` or `digits.digits`). -/
def parsePosChs (l : List Char) : Option ℚ :=
  let ip := l.takeWhile (fun c => c ≠ '.')
  if ip = [] ∨ ¬ ip.all Char.isDigit then none
  else
    match l.drop ip.length with
    | [] => some (mkRat (digitsVal ip) 1)
    | _ :: fp =>
      if fp ≠ [] ∧ fp.all Char.isDigit then
        some (mkRat (digitsVal ip * 10 ^ fp.length + digitsVal fp) (10 ^ fp.length))
      else none

/-- Parse a signed decimal literal. -/
def parseNumChs (l : List Char) : Option ℚ :=
  match l with
  | [] => none
  | c :: rest => if c = '-' then (parsePosChs rest).map (fun q => -q) else parsePosChs l

/-- Parse a string as a JS number under the numeric-literal grammar. -/
def parseNum (s : String) : Option ℚ := parseNumChs s.data

/-- Model of `isNumeric` from `@v-termeh/utils` on strings. -/
def isNumericS (s : String) : Bool := (parseNum s).isSome

/-- Model of JS `Number()` on a string (only ever used under an
`isNumeric` guard in the source). -/
def numOf (s : String) : ℚ := (parseNum s).getD 0

/-! ## UTF-8 and percent-encoding -/

/-- UTF-8 encoding of a code point (1–4 bytes). -/
def utf8Enc (n : Nat) : List Nat :=
  if n < 128 then [n]
  else if n < 2048 then [192 + n / 64, 128 + n % 64]
  else if n < 65536 then [224 + n / 4096, 128 + n / 64 % 64, 128 + n % 64]
  else [240 + n / 262144, 128 + n / 4096 % 64, 128 + n / 64 % 64, 128 + n % 64]

/-- UTF-8 decoding of a byte list into code points. -/
def utf8Dec : List Nat → Option (List Nat)
  | [] => some []
  | b :: bs =>
    if b < 128 then (utf8Dec bs).map (b :: ·)
    else if b < 192 then none
    else if b < 224 then
      match bs with
      | b1 :: bs1 =>
        if 128 ≤ b1 ∧ b1 < 192 then
          (utf8Dec bs1).map (((b - 192) * 64 + (b1 - 128)) :: ·)
        else none
      | [] => none
    else if b < 240 then
      match bs with
      | b1 :: b2 :: bs2 =>
        if (128 ≤ b1 ∧ b1 < 192) ∧ (128 ≤ b2 ∧ b2 < 192) then
          (utf8Dec bs2).map (((b - 224) * 4096 + (b1 - 128) * 64 + (b2 - 128)) :: ·)
        else none
      | _ => none
    else if b < 248 then
      match bs with
      | b1 :: b2 :: b3 :: bs3 =>
        if (128 ≤ b1 ∧ b1 < 192) ∧ (128 ≤ b2 ∧ b2 < 192) ∧ (128 ≤ b3 ∧ b3 < 192) then
          (utf8Dec bs3).map
            (((b - 240) * 262144 + (b1 - 128) * 4096 + (b2 - 128) * 64 + (b3 - 128)) :: ·)
        else none
      | _ => none
    else none

/-- UTF-8 bytes of a string (model of `TextEncoder.encode`). -/
def strBytes (s : String) : List Nat := s.data.flatMap (fun c => utf8Enc c.toNat)

/-- Uppercase hexadecimal digit. -/
def hexCh (n : Nat) : Char := if n < 10 then Char.ofNat (48 + n) else Char.ofNat (55 + n)

/-- Numeric value of a hexadecimal digit character, if valid. -/
def hexChVal (c : Char) : Option Nat :=
  if 48 ≤ c.toNat ∧ c.toNat ≤ 57 then some (c.toNat - 48)
  else if 65 ≤ c.toNat ∧ c.toNat ≤ 70 then some (c.toNat - 55)
  else if 97 ≤ c.toNat ∧ c.toNat ≤ 102 then some (c.toNat - 87)
  else none

/-- The unreserved character set of `encodeURIComponent`:
ASCII alphanumerics and `- _ . ! ~ * ' ( )`. -/
def isUnreserved (c : Char) : Bool :=
  decide ((48 ≤ c.toNat ∧ c.toNat ≤ 57) ∨ (65 ≤ c.toNat ∧ c.toNat ≤ 90) ∨
    (97 ≤ c.toNat ∧ c.toNat ≤ 122) ∨
    c.toNat ∈ ([45, 95, 46, 33, 126, 42, 39, 40, 41] : List Nat))

/-- Percent-escape of one character: unreserved characters stand for
themselves, all others as `%XX` per UTF-8 byte. -/
def pctEncCh (c : Char) : List Char :=
  if isUnreserved c then [c]
  else (utf8Enc c.toNat).flatMap (fun b => ['%', hexCh (b / 16), hexCh (b % 16)])

/-- Model of JS `encodeURIComponent`. -/
def pctEncode (s : String) : String := ⟨s.data.flatMap pctEncCh⟩

/-- Percent-decode a character list into a byte list (non-escape
characters contribute their UTF-8 bytes). -/
def pctBytes : List Char → Option (List Nat)
  | [] => some []
  | '%' :: rest =>
    match rest with
    | h1 :: h2 :: rest2 =>
      match hexChVal h1, hexChVal h2 with
      | some v1, some v2 => (pctBytes rest2).map ((v1 * 16 + v2) :: ·)
      | _, _ => none
    | _ => none
  | c :: rest => (pctBytes rest).map (utf8Enc c.toNat ++ ·)

/-- Model of JS `decodeURIComponent`: percent-decode to bytes, then UTF-8
decode. A malformed input (on which the JS function would throw) is
returned unchanged; theorems only traverse the well-formed path. -/
def pctDecode (s : String) : String :=
  match pctBytes s.data with
  | none => s
  | some bytes =>
    match utf8Dec bytes with
    | none => s
    | some cps => ⟨cps.map Char.ofNat⟩

/-! ## The JS value model -/

/-- A JS runtime value as it flows through the untyped parts of the
source: primitives, arrays, and plain objects (ordered field lists). -/
inductive Value where
  | vstr (s : String)
  | vnum (q : ℚ)
  | vbool (b : Bool)
  | vnull
  | vundef
  | varr (xs : List Value)
  | vobj (fs : List (String × Value))

mutual

/-- Structural size of a value (hand-rolled so that it is both
compilable and kernel-reducible; used as recursion fuel). -/
def vSize : Value → Nat
  | .varr xs => 1 + lSize xs
  | .vobj fs => 1 + eSize fs
  | _ => 1

/-- Structural size of a value list. -/
def lSize : List Value → Nat
  | [] => 0
  | v :: rest => 1 + vSize v + lSize rest

/-- Structural size of a field list. -/
def eSize : List (String × Value) → Nat
  | [] => 0
  | (_, v) :: rest => 1 + vSize v + eSize rest

end

/-- Decimal rendering of a natural number as a string. -/
def natStr (n : Nat) : String := ⟨natToChs n⟩

/-- Model of JS `String()`, fueled for kernel evaluation. Arrays render as
their comma-joined elements, objects as `[object Object]`. -/
def jsStringF : Nat → Value → String
  | 0, _ => ""
  | _ + 1, .vstr s => s
  | _ + 1, .vnum q => numToString q
  | _ + 1, .vbool b => if b then "true" else "false"
  | _ + 1, .vnull => "null"
  | _ + 1, .vundef => "undefined"
  | f + 1, .varr xs => sInter ',' (xs.map (jsStringF f))
  | _ + 1, .vobj _ => "[object Object]"

/-- Model of JS `String()`. -/
def jsString (v : Value) : String := jsStringF (vSize v + 1) v

/-- JS property access `v[k]` (absent fields read as `undefined`). -/
def getField (v : Value) (k : String) : Value :=
  match v with
  | .vobj fs => ((fs.find? (fun p => p.1 == k)).map (fun p => p.2)).getD .vundef
  | _ => (.vundef)

/-! ## The signer (`useSigner`)

`flatten` mirrors the source exactly: a non-compound value becomes a
single `path:value` token; objects iterate their fields; a top-level
array iterates `Object.entries`, i.e. its elements keyed by index;
elements of a nested array contribute their parent's path unchanged;
every level returns its tokens sorted (JS `Array.sort`, lexicographic by
code unit). The recursion is run by a fuel-indexed task machine so that
it is structurally recursive and evaluates in the kernel; `flatten` is
recovered through measure-stability lemmas below. -/

/-- Signer-side `encodeValue`: `null` → `[null]`, `undefined` →
`[undefined]`, otherwise `String(v)`. -/
def encodeValueS (v : Value) : String :=
  match v with
  | .vnull => "[null]"
  | .vundef => "[undefined]"
  | v => jsString v

/-- One `path:value` token. -/
def tok (key : String) (v : Value) : String := key ++ ":" ++ encodeValueS v

/-- Lexicographic comparison of character lists by code point (model of
the default JS string comparison used by `Array.sort`). -/
def chLe : List Char → List Char → Bool
  | [], _ => true
  | _ :: _, [] => false
  | a :: as, b :: bs => if a.toNat = b.toNat then chLe as bs else decide (a.toNat < b.toNat)

/-- Lexicographic string comparison. -/
def strLe (a b : String) : Bool := chLe a.data b.data

/-- The sort relation on tokens. -/
def tokRel : String → String → Prop := fun a b => strLe a b = true

instance : DecidableRel tokRel := fun a b => instDecidableEqBool (strLe a b) true

/-- Model of JS `Array.sort()` on string lists. -/
def sortTokens (l : List String) : List String := List.insertionSort tokRel l

/-- Work items of the flatten machine: flatten a value under a path,
iterate object fields, iterate a top-level array by index, or iterate a
nested array under its parent's path. -/
inductive FTask where
  | val (v : Value) (p : String)
  | items (l : List (String × Value)) (p : String)
  | idxItems (l : List Value) (i : Nat) (p : String)
  | arrEls (l : List Value) (key : String)

/-- Path extension: `prefix ? prefix + "." + k : k`. -/
def extKey (p k : String) : String := if p = "" then k else p ++ "." ++ k

/-- The fueled flatten machine (each step structurally consumes fuel). -/
def runF : Nat → FTask → List String
  | 0, _ => []
  | f + 1, t =>
    match t with
    | .val v p =>
      match v with
      | .vobj fs => sortTokens (runF f (.items fs p))
      | .varr xs => sortTokens (runF f (.idxItems xs 0 p))
      | sc => [tok (if p = "" then "value" else p) sc]
    | .items [] _ => []
    | .items ((k, v) :: rest) p =>
      (match v with
       | .vobj fs => runF f (.val (.vobj fs) (extKey p k))
       | .varr els => runF f (.arrEls els (extKey p k))
       | sc => [tok (extKey p k) sc]) ++ runF f (.items rest p)
    | .idxItems [] _ _ => []
    | .idxItems (el :: rest) i p =>
      (match el with
       | .vobj fs => runF f (.val (.vobj fs) (extKey p (natStr i)))
       | .varr els => runF f (.arrEls els (extKey p (natStr i)))
       | sc => [tok (extKey p (natStr i)) sc]) ++ runF f (.idxItems rest (i + 1) p)
    | .arrEls [] _ => []
    | .arrEls (el :: rest) key =>
      (match el with
       | .vobj fs => runF f (.val (.vobj fs) key)
       | .varr els => runF f (.val (.varr els) key)
       | sc => [tok key sc]) ++ runF f (.arrEls rest key)

/-- Structural measure of a task (ignores the path strings). -/
def mea : FTask → Nat
  | .val v _ => vSize v
  | .items l _ => eSize l
  | .idxItems l _ _ => lSize l
  | .arrEls l _ => lSize l

/-- The signer's `flatten`. -/
def flatten (v : Value) (p : String) : List String := runF (vSize v + 1) (.val v p)

/-- Flattening of an object's field list. -/
def flatItems (l : List (String × Value)) (p : String) : List String :=
  runF (eSize l + 1) (.items l p)

/-- Flattening of a top-level array's indexed elements. -/
def flatIdx (l : List Value) (i : Nat) (p : String) : List String :=
  runF (lSize l + 1) (.idxItems l i p)

/-- Flattening of a nested array's elements. -/
def flatArrEls (l : List Value) (key : String) : List String :=
  runF (lSize l + 1) (.arrEls l key)

/-! ## SHA-256 over `Nat` -/

/-- Truncation to a 32-bit word. -/
def w32 (n : Nat) : Nat := n % 4294967296

/-- Right rotation of a 32-bit word. -/
def rotr32 (k x : Nat) : Nat := w32 (x >>> k ||| x <<< (32 - k))

/-- The SHA-256 round constants. -/
def shaK : List Nat :=
  [1116352408, 1899447441, 3049323471, 3921009573, 961987163, 1508970993,
   2453635748, 2870763221, 3624381080, 310598401, 607225278, 1426881987,
   1925078388, 2162078206, 2614888103, 3248222580, 3835390401, 4022224774,
   264347078, 604807628, 770255983, 1249150122, 1555081692, 1996064986,
   2554220882, 2821834349, 2952996808, 3210313671, 3336571891, 3584528711,
   113926993, 338241895, 666307205, 773529912, 1294757372, 1396182291,
   1695183700, 1986661051, 2177026350, 2456956037, 2730485921, 2820302411,
   3259730800, 3345764771, 3516065817, 3600352804, 4094571909, 275423344,
   430227734, 506948616, 659060556, 883997877, 958139571, 1322822218,
   1537002063, 1747873779, 1955562222, 2024104815, 2227730452, 2361852424,
   2428436474, 2756734187, 3204031479, 3329325298]

/-- The SHA-256 initial hash words (decimal). -/
def shaH0 : List Nat :=
  [1779033703, 3144134277, 1013904242, 2773480762, 1359893119, 2600822924,
   528734635, 1541459225]

/-- Big-endian bytes of `n`, `k` bytes wide. -/
def beBytes (k n : Nat) : List Nat :=
  (List.range k).map (fun i => n / 256 ^ (k - 1 - i) % 256)

/-- SHA-256 message padding: `0x80`, zeros to 56 mod 64, 8-byte length. -/
def padMsg (msg : List Nat) : List Nat :=
  msg ++ 128 :: List.replicate ((119 - msg.length % 64) % 64) 0 ++ beBytes 8 (msg.length * 8)

/-- Group bytes into big-endian 32-bit words. -/
def toWords : List Nat → List Nat
  | b0 :: b1 :: b2 :: b3 :: rest => (((b0 * 256 + b1) * 256 + b2) * 256 + b3) :: toWords rest
  | _ => []

/-- Split into chunks of 16 words (fueled). -/
def chunksF : Nat → List Nat → List (List Nat)
  | 0, _ => []
  | _ + 1, [] => []
  | f + 1, l => l.take 16 :: chunksF f (l.drop 16)

/-- Message-schedule expansion from 16 to 64 words. -/
def schedW (ws : List Nat) : List Nat :=
  (List.range 48).foldl
    (fun w _ =>
      let t := w.length
      let s0 := let x := w.getD (t - 15) 0
        rotr32 7 x ^^^ rotr32 18 x ^^^ (x >>> 3)
      let s1 := let x := w.getD (t - 2) 0
        rotr32 17 x ^^^ rotr32 19 x ^^^ (x >>> 10)
      w ++ [w32 (s1 + w.getD (t - 7) 0 + s0 + w.getD (t - 16) 0)])
    ws

/-- One SHA-256 block compression. -/
def compress (h : List Nat) (block : List Nat) : List Nat :=
  let w := schedW block
  let step := fun (st : List Nat) (wk : Nat × Nat) =>
    match st with
    | [a, b, c, d, e, f, g, hh] =>
      let S1 := rotr32 6 e ^^^ rotr32 11 e ^^^ rotr32 25 e
      let ch := (e &&& f) ^^^ ((4294967295 - e) &&& g)
      let t1 := w32 (hh + S1 + ch + wk.2 + wk.1)
      let S0 := rotr32 2 a ^^^ rotr32 13 a ^^^ rotr32 22 a
      let mj := (a &&& b) ^^^ (a &&& c) ^^^ (b &&& c)
      let t2 := w32 (S0 + mj)
      [w32 (t1 + t2), a, b, c, w32 (d + t1), e, f, g]
    | st => st
  let out := (w.zip shaK).foldl step h
  (h.zip out).map (fun p => w32 (p.1 + p.2))

/-- Lowercase hexadecimal digit (JS `toString(16)`). -/
def hexChL (n : Nat) : Char := if n < 10 then Char.ofNat (48 + n) else Char.ofNat (87 + n)

/-- SHA-256 digest bytes of a byte list. -/
def sha256Bytes (msg : List Nat) : List Nat :=
  let ws := toWords (padMsg msg)
  ((chunksF (ws.length + 1) ws).foldl compress shaH0).flatMap (beBytes 4)

/-- Hexadecimal digest string (two lowercase digits per byte, as the
source renders it). -/
def sha256Hex (msg : List Nat) : String :=
  ⟨(sha256Bytes msg).flatMap (fun b => [hexChL (b / 16), hexChL (b % 16)])⟩

/-- The signer's `sign`: SHA-256 of the sorted flattened tokens joined
with a bar. -/
def signCalc (v : Value) : String := sha256Hex (strBytes (sInter '|' (flatten v "")))

/-- The signer's `validate`: recompute and compare. -/
def validateCalc (v : Value) (signature : String) : Bool := signCalc v == signature

/-! ## The codec (`useEncoder`) -/

/-- Codec-side `encodeValue`: the loose `v == null` test sends both
`null` and `undefined` to the *encoded* literal `[null]`; every other
primitive is stringified then percent-encoded. -/
def encodeValueC (v : Value) : String :=
  match v with
  | .vnull => pctEncode "[null]"
  | .vundef => pctEncode "[null]"
  | v => pctEncode (jsString v)

/-- Codec-side `decodeValue`. -/
def decodeValueC (s : String) : String := pctDecode s

/-- The codec's `inferType`: decode, then try `true`, `false`, `[null]`,
a numeric literal, in that order; otherwise keep the string. -/
def inferType (s : String) : Value :=
  let v := pctDecode s
  if v = "true" then .vbool true
  else if v = "false" then .vbool false
  else if v = "[null]" then .vnull
  else if isNumericS v then .vnum (numOf v)
  else .vstr v

/-- `encodeArray`: encoded elements joined with commas. -/
def encodeArrayC (xs : List Value) : String := sInter ',' (xs.map encodeValueC)

/-- `decodeArray`: split on commas, infer each element. -/
def decodeArrayC (s : String) : List Value := (sSplit ',' s).map inferType

/-- `encodeObject`: `key:value` pairs (both encoded) joined with commas. -/
def encodeObjectC (fs : List (String × Value)) : String :=
  sInter ',' (fs.map (fun kv => encodeValueC (.vstr kv.1) ++ ":" ++ encodeValueC kv.2))

/-- JS object assignment `obj[k] = v` on an ordered field list: replace
in place or append. -/
def assocSet (l : List (String × Value)) (k : String) (v : Value) : List (String × Value) :=
  match l with
  | [] => [(k, v)]
  | (k0, v0) :: rest => if k0 = k then (k0, v) :: rest else (k0, v0) :: assocSet rest k v

/-- `decodeObject`: split on commas, take the first two colon-parts of
each piece, keep entries with a non-empty trimmed key and non-empty raw
value. -/
def decodeObjectC (s : String) : List (String × Value) :=
  (sSplit ',' s).foldl
    (fun acc part =>
      match sSplit ':' part with
      | k :: v :: _ =>
        if sTrim k ≠ "" ∧ v ≠ "" then assocSet acc (pctDecode (sTrim k)) (inferType v) else acc
      | _ => acc)
    []

/-- `isOrderType` from the store's utilities. -/
def isOrderType (s : String) : Bool := s == "asc" || s == "desc"

/-- The runtime shape of a decoded `Sort` record. -/
def sortV (f o : String) : Value := .vobj [("field", .vstr f), ("order", .vstr o)]

/-- `encodeSorts`: `field:order` pairs joined with commas (field and
order read off each entry by property access). -/
def encodeSortsC (sorts : List Value) : String :=
  sInter ','
    (sorts.map (fun s => encodeValueC (getField s "field") ++ ":" ++ encodeValueC (getField s "order")))

/-- `decodeSorts`: keep the comma-chunks containing a colon, split each
at colons, and keep only entries with a non-empty decoded field and a
valid order. -/
def decodeSortsC (s : String) : List Value :=
  ((sSplit ',' s).filter (fun i => i ≠ "" ∧ sContains i ':')).filterMap
    (fun i =>
      match sSplit ':' i with
      | field :: order :: _ =>
        if sTrim field = "" ∨ order = "" then none
        else
          let f := pctDecode (sTrim field)
          let o := pctDecode order
          if f ≠ "" ∧ isOrderType o then some (sortV f o) else none
      | _ => none)

/-! ## The `URLSearchParams` boundary

`URLSearchParams` is platform code. It is modelled as the ordered list
of its raw key/value pairs; the form-urlencoded wire format produced by
`toString()` and re-parsed by the constructor is a bijection between
such lists and query strings, so the wire hop is the identity of this
model. -/

/-- A parsed query: ordered raw key/value pairs. -/
abbrev Query := List (String × String)

/-- `URLSearchParams.get`: first value for the key. -/
def getParam (q : Query) (k : String) : Option String :=
  (q.find? (fun p => p.1 == k)).map (fun p => p.2)

/-- `URLSearchParams.has`. -/
def hasParam (q : Query) (k : String) : Bool := (getParam q k).isSome

/-- `URLSearchParams.set`: replace the first occurrence in place,
dropping further occurrences, or append. -/
def setParam (q : Query) (k v : String) : Query :=
  match q with
  | [] => [(k, v)]
  | (k0, v0) :: rest =>
    if k0 = k then (k0, v) :: rest.filter (fun p => p.1 ≠ k)
    else (k0, v0) :: setParam rest k v

/-! ## The filter state and the query codec (`encode` / `decode`) -/

/-- The runtime shape of a `Filters` record (`sorts` holds arbitrary
runtime values, as the untyped paths of the source can store any
array wholesale). -/
structure FState where
  page : ℚ
  limit : ℚ
  search : String
  sorts : List Value
  filters : List (String × Value)

/-- The reserved query parameter names. -/
def reservedKeys : List String := ["page", "limit", "search", "sorts"]

/-- How `encode` renders one filter value. -/
def encodeFilterVal (v : Value) : String :=
  match v with
  | .varr xs => encodeArrayC xs
  | .vobj fs => encodeObjectC fs
  | v => encodeValueC v

/-- The codec's `encode` up to the wire boundary: build the parameter
list (reserved fields first, then every filter entry under its raw
key). -/
def encodeQ (s : FState) : Query :=
  let q : Query := []
  let q := if 0 < s.page then setParam q "page" (numToString s.page) else q
  let q := if 0 < s.limit then setParam q "limit" (numToString s.limit) else q
  let q := if s.search ≠ "" then setParam q "search" s.search else q
  let q := if s.sorts.isEmpty then q else setParam q "sorts" (encodeSortsC s.sorts)
  s.filters.foldl (fun q kv => setParam q kv.1 (encodeFilterVal kv.2)) q

/-- `positiveSafe` on an optional raw parameter value: accepted only if
numeric with a strictly positive value. -/
def posParam (o : Option String) : Option ℚ :=
  match o with
  | some v => if isNumericS v ∧ 0 < numOf v then some (numOf v) else none
  | none => none

/-- The codec's `decode` from the wire boundary: positive `page`/`limit`,
raw `search`, `decodeSorts` on the trimmed `sorts` parameter, and the
comma/colon classification heuristic for every non-reserved key. -/
def decodeQ (q : Query) : FState :=
  let page := (posParam (getParam q "page")).getD 0
  let limit := (posParam (getParam q "limit")).getD 0
  let search := if hasParam q "search" then (getParam q "search").getD "" else ""
  let sorts :=
    match getParam q "sorts" with
    | some v => decodeSortsC (sTrim v)
    | none => []
  let filters :=
    q.foldl
      (fun acc kv =>
        if reservedKeys.contains kv.1 then acc
        else
          let f := sTrim (pctDecode kv.1)
          if f ≠ "" then
            if sContains kv.2 ',' ∧ ¬ sContains kv.2 ':' then assocSet acc f (.varr (decodeArrayC kv.2))
            else if sContains kv.2 ':' then assocSet acc f (.vobj (decodeObjectC kv.2))
            else assocSet acc f (inferType kv.2)
          else acc)
      []
  ⟨page, limit, search, sorts, filters⟩

/-! ## Store utilities (`useUtils`) -/

/-- The zero-value predicate of `removeZero`: `undefined`, an empty
array, or an empty plain object. -/
def isZeroEntry (v : Value) : Bool :=
  match v with
  | .vundef => true
  | .varr [] => true
  | .vobj [] => true
  | _ => false

/-- `removeZero` on a filters object: drop zero-valued entries. -/
def removeZero (fs : List (String × Value)) : List (String × Value) :=
  fs.filter (fun kv => ¬ isZeroEntry kv.2)

/-- Model of `isNumeric` from `@v-termeh/utils` on a runtime value. -/
def isNumericV (v : Value) : Bool :=
  match v with
  | .vnum _ => true
  | .vstr s => isNumericS s
  | _ => false

/-- Model of JS `Number()` on a runtime value (used under the
`isNumeric` guard). -/
def numberOf (v : Value) : ℚ :=
  match v with
  | .vnum q => q
  | .vstr s => numOf s
  | _ => 0

/-- The test `positiveSafe(v, 0)! > 0`. -/
def positiveSafeHolds (v : Value) : Bool := isNumericV v && decide (0 < numberOf v)

/-- Well-formedness of a stored sort entry, in the spec's sense:
a record with a non-empty string field and an order in
`{asc, desc}`. -/
def isWFSortV (v : Value) : Bool :=
  match v with
  | .vobj [("field", .vstr f), ("order", .vstr o)] => f ≠ "" && isOrderType o
  | _ => false

/-- The filters invariant claimed by the spec: no zero-valued entries. -/
def noZeroFilters (fs : List (String × Value)) : Bool :=
  fs.all (fun kv => ¬ isZeroEntry kv.2)

/-! ## The filter store (`useFilter`) -/

/-- The `storables` option. -/
inductive StorablesOpt where
  | all
  | list (l : List String)
  | unset

/-- `isValidOption`. -/
def isValidOption (key : String) (o : StorablesOpt) : Bool :=
  match o with
  | .all => true
  | .list l => l.contains key
  | .unset => false

/-- The mutable `stats` record of a store instance. -/
structure Stats where
  sign : String
  locked : Bool
  page : ℚ
  limit : ℚ
  search : String
  sorts : List Value
  filters : List (String × Value)

/-- The argument of one `apply` call: a JS object whose five relevant
properties read as `undefined` when absent. -/
structure ApplyInput where
  page : Value
  limit : Value
  search : Value
  sorts : Value
  filters : Value

/-- The apply input with every field absent. -/
def emptyInput : ApplyInput := ⟨.vundef, .vundef, .vundef, .vundef, .vundef⟩

/-- Outcome of one `apply` call: the state afterwards, whether the call
was dropped by the lock, whether the returned promise resolved, whether
the registered callback fired, and the storage writes attempted. -/
structure ApplyResult where
  stats : Stats
  dropped : Bool
  ok : Bool
  fired : Bool
  stored : List (String × String)

/-- The canonical snapshot `params` built inside `apply`. -/
def paramsOf (s : Stats) : Value :=
  .vobj [("page", .vnum s.page), ("limit", .vnum s.limit), ("search", .vstr s.search),
         ("sorts", .varr s.sorts), ("filters", .vobj s.filters)]

/-- The per-field merge of `apply` (lines 148–166 of `useFilter.ts`):
positive-numeric `page`/`limit`, non-empty string `search`, wholesale
array `sorts`, wholesale zero-pruned object `filters`. -/
def mergeFields (s : Stats) (x : ApplyInput) : Stats :=
  let s1 := if positiveSafeHolds x.page then { s with page := numberOf x.page } else s
  let s2 := if positiveSafeHolds x.limit then { s1 with limit := numberOf x.limit } else s1
  let s3 :=
    match x.search with
    | .vstr str => if str ≠ "" then { s2 with search := str } else s2
    | _ => s2
  let s4 :=
    match x.sorts with
    | .varr xs => { s3 with sorts := xs }
    | _ => s3
  match x.filters with
  | .vobj fs => { s4 with filters := removeZero fs }
  | _ => s4

/-- The storage writes attempted on a committing `apply`: the
allowlisted `limit` (when positive) and `sorts` (when non-empty). -/
def storeWrites (stb : StorablesOpt) (m : Stats) : List (String × String) :=
  (if isValidOption "limit" stb && positiveSafeHolds (.vnum m.limit) then
      [("limit", numToString m.limit)]
    else []) ++
    (if isValidOption "sorts" stb && ¬ m.sorts.isEmpty then
      [("sorts", encodeSortsC m.sorts)]
    else [])

/-- The store's `apply`: drop when locked; otherwise merge, snapshot,
validate against the committed signature and—only on a difference—commit
the new signature, fire the callback and persist the allowlisted
fields. `cryptoOk = false` models an unavailable digest primitive: the
promise rejects after the merge, and the `finally` still releases the
lock. -/
def applyF (cryptoOk : Bool) (stb : StorablesOpt) (s : Stats) (x : ApplyInput) : ApplyResult :=
  if s.locked then ⟨s, true, true, false, []⟩
  else
    let m := mergeFields s x
    if cryptoOk then
      let newSign := signCalc (paramsOf m)
      if newSign == m.sign then ⟨{ m with locked := false }, false, true, false, []⟩
      else ⟨{ m with sign := newSign, locked := false }, false, true, true, storeWrites stb m⟩
    else ⟨{ m with locked := false }, false, false, false, []⟩

/-- The apply input carried by a decoded state (`parseURL` feeds
`decode`'s result straight into `apply`). -/
def inputOfState (f : FState) : ApplyInput :=
  ⟨.vnum f.page, .vnum f.limit, .vstr f.search, .varr f.sorts, .vobj f.filters⟩

/-- `parseURL` at the wire boundary. -/
def parseURLF (cryptoOk : Bool) (stb : StorablesOpt) (s : Stats) (q : Query) : ApplyResult :=
  applyF cryptoOk stb s (inputOfState (decodeQ q))

/-! ## Derived definitions used by the theorems -/

/-- Tokens contributed by one object field. -/
def itemTok (p k : String) (v : Value) : List String :=
  match v with
  | .vobj fs => flatten (.vobj fs) (extKey p k)
  | .varr els => flatArrEls els (extKey p k)
  | sc => [tok (extKey p k) sc]

/-- Tokens contributed by one indexed element of a top-level array. -/
def idxTok (p : String) (i : Nat) (el : Value) : List String :=
  match el with
  | .vobj fs => flatten (.vobj fs) (extKey p (natStr i))
  | .varr els => flatArrEls els (extKey p (natStr i))
  | sc => [tok (extKey p (natStr i)) sc]

/-- Tokens contributed by one element of a nested array. -/
def arrElTok (key : String) (el : Value) : List String :=
  match el with
  | .vobj fs => flatten (.vobj fs) key
  | .varr els => flatten (.varr els) key
  | sc => [tok key sc]

mutual

/-- Two values that hold the same data up to the insertion order of
object keys, at any nesting depth: primitives equal, arrays pointwise
related in order, objects a pointwise-related field list followed by a
permutation. -/
def KeyPerm : Value → Value → Prop
  | .varr xs, .varr ys => KPL xs ys
  | .vobj l1, .vobj l2 => ∃ mid, KPE l1 mid ∧ mid.Perm l2
  | a, b => a = b

/-- Pointwise `KeyPerm` on element lists. -/
def KPL : List Value → List Value → Prop
  | [], [] => True
  | x :: xs, y :: ys => KeyPerm x y ∧ KPL xs ys
  | _, _ => False

/-- Pointwise key-preserving `KeyPerm` on field lists. -/
def KPE : List (String × Value) → List (String × Value) → Prop
  | [], [] => True
  | (k, v) :: xs, (k2, v2) :: ys => k = k2 ∧ KeyPerm v v2 ∧ KPE xs ys
  | _, _ => False

end

/-! ### Hypothesis classes of the amended round-trip claim -/

/-- Strings whose decoded form is not re-interpreted by `inferType`. -/
def goodStr (s : String) : Bool :=
  !(s == "true" || s == "false" || s == "[null]" || isNumericS s)

/-- Primitives that survive the codec: non-ambiguous strings, finite
decimal numbers, booleans, `null`. -/
def goodPrimV : Value → Bool
  | .vstr s => goodStr s
  | .vnum q => isDecimalB q
  | .vbool _ => true
  | .vnull => true
  | _ => false

/-- The empty-string value (dropped by `decodeObject`). -/
def isEmptyStrV : Value → Bool
  | .vstr "" => true
  | _ => false

/-- Pairwise-distinct keys of a field list. -/
def nodupKeys : List (String × Value) → Bool
  | [] => true
  | (k, _) :: rest => !(rest.any (fun kv => kv.1 == k)) && nodupKeys rest

/-- Filter keys that survive `decode`'s `decodeValue(key).trim()`:
non-empty, non-reserved, percent-free and trim-fixed. -/
def goodKeyStr (k : String) : Bool :=
  !(k == "") && !(reservedKeys.contains k) && !(sContains k '%') && (sTrim k == k)

/-- Filter values representable by the codec's classification heuristic:
a good primitive, an array of at least two good primitives, or a
non-empty object of good primitives under non-empty keys with
non-empty-string values and distinct keys. -/
def goodEntryVal : Value → Bool
  | .varr xs => decide (2 ≤ xs.length) && xs.all goodPrimV
  | .vobj fs =>
    !fs.isEmpty && nodupKeys fs &&
      fs.all (fun kv => !(kv.1 == "") && goodPrimV kv.2 && !(isEmptyStrV kv.2))
  | v => goodPrimV v

/-- The hypothesis bundle of the amended round-trip claim. -/
def goodFState (s : FState) : Bool :=
  decide (0 < s.page) && isDecimalB s.page && decide (0 < s.limit) && isDecimalB s.limit &&
    s.sorts.all isWFSortV && nodupKeys s.filters &&
    s.filters.all (fun kv => goodKeyStr kv.1 && goodEntryVal kv.2)

/-! ### Concrete fixtures for witnesses and counterexamples -/

/-- A fresh store state (hard-coded defaults, nothing persisted). -/
def stats0 : Stats := ⟨"", false, 1, 20, "", [], []⟩

/-- An apply input carrying only a page. -/
def pageInput (v : Value) : ApplyInput := ⟨v, .vundef, .vundef, .vundef, .vundef⟩

/-- An apply input carrying only a sorts array. -/
def sortsInput (v : Value) : ApplyInput := ⟨.vundef, .vundef, .vundef, v, .vundef⟩

/-- An apply input carrying only a filters object. -/
def filtersInput (v : Value) : ApplyInput := ⟨.vundef, .vundef, .vundef, .vundef, v⟩

/-- A sort entry violating both well-formedness conditions. -/
def badSort : Value := .vobj [("field", .vstr ""), ("order", .vstr "up")]

/-- The singleton-array state of the round-trip counterexample. -/
def ceState : FState := ⟨1, 20, "", [], [("a", .varr [.vnum 5])]⟩

/-- Observation separating a singleton-array filter from a scalar one. -/
def obsArr : List (String × Value) → Bool
  | [(_, .varr _)] => true
  | _ => false

/-- A locked store state (commit in progress). -/
def lockedStats : Stats := ⟨"", true, 1, 20, "", [], []⟩

/-- A two-entry sorts list and its swap. -/
def sortsPair : List Value := [sortV "a" "asc", sortV "b" "desc"]

/-- The swapped sorts list. -/
def sortsPairSw : List Value := [sortV "b" "desc", sortV "a" "asc"]

/-- A store state whose committed signature matches its snapshot. -/
def statsSorted : Stats :=
  ⟨signCalc (.vobj [("page", .vnum 1), ("limit", .vnum 20), ("search", .vstr ""),
      ("sorts", .varr sortsPair), ("filters", .vobj [])]),
    false, 1, 20, "", sortsPair, []⟩

/-- A nested object under one key order. -/
def kpA : Value := .vobj [("x", .vobj [("a", .vnum 1), ("b", .vnum 2)]), ("y", .vstr "s")]

/-- The same data with both levels reordered. -/
def kpB : Value := .vobj [("y", .vstr "s"), ("x", .vobj [("b", .vnum 2), ("a", .vnum 1)])]

/-- A representative well-behaved state exercising every compound shape
of the round-trip theorem. -/
def rtState : FState :=
  ⟨3, mkRat 5 2, "foo", [sortV "price" "desc", sortV "id" "asc"],
    [("cat", .varr [.vstr "a b", .vnull, .vnum 7]), ("m", .vobj [("k", .vbool true)]),
     ("s", .vstr "x:y")]⟩

/-! # Theorems

## The flatten machine: fuel stability and specification equations -/

theorem vSize_pos (v : Value) : 1 ≤ vSize v := by
  cases v <;> simp [vSize]

theorem mea_val (v : Value) (p : String) : mea (.val v p) = vSize v := rfl

theorem runF_congr :
    ∀ (n : Nat) (t : FTask) (f g : Nat), mea t ≤ n → mea t < f → mea t < g →
      runF f t = runF g t := by
  intro n
  induction n with
  | zero =>
    intro t f g h0 hf hg
    cases f with
    | zero => omega
    | succ f =>
      cases g with
      | zero => omega
      | succ g =>
        match t with
        | .val v p => exact absurd (vSize_pos v) (by simp [mea] at h0; omega)
        | .items [] p => simp [runF]
        | .items ((k, v) :: rest) p =>
          exact absurd h0 (by simp [mea, eSize])
        | .idxItems [] i p => simp [runF]
        | .idxItems (el :: rest) i p =>
          exact absurd h0 (by simp [mea, lSize])
        | .arrEls [] key => simp [runF]
        | .arrEls (el :: rest) key =>
          exact absurd h0 (by simp [mea, lSize])
  | succ n ih =>
    intro t f g h0 hf hg
    cases f with
    | zero => omega
    | succ f =>
      cases g with
      | zero => omega
      | succ g =>
        match t with
        | .val v p =>
          cases v with
          | varr xs =>
            simp only [runF]
            congr 1
            exact ih (.idxItems xs 0 p) f g (by simp [mea, vSize] at h0 ⊢; omega)
              (by simp [mea, vSize] at hf ⊢; omega) (by simp [mea, vSize] at hg ⊢; omega)
          | vobj fs =>
            simp only [runF]
            congr 1
            exact ih (.items fs p) f g (by simp [mea, vSize] at h0 ⊢; omega)
              (by simp [mea, vSize] at hf ⊢; omega) (by simp [mea, vSize] at hg ⊢; omega)
          | vstr s => simp [runF]
          | vnum q => simp [runF]
          | vbool b => simp [runF]
          | vnull => simp [runF]
          | vundef => simp [runF]
        | .items [] p => simp [runF]
        | .items ((k, v) :: rest) p =>
          simp only [runF]
          have h0e : 1 + vSize v + eSize rest ≤ n + 1 := by simpa [mea, eSize] using h0
          have hfe : 1 + vSize v + eSize rest < f + 1 := by simpa [mea, eSize] using hf
          have hge : 1 + vSize v + eSize rest < g + 1 := by simpa [mea, eSize] using hg
          have hrest : runF f (.items rest p) = runF g (.items rest p) :=
            ih (.items rest p) f g (by simp [mea]; omega) (by simp [mea]; omega)
              (by simp [mea]; omega)
          cases v with
          | varr els =>
            have : runF f (.arrEls els (extKey p k)) = runF g (.arrEls els (extKey p k)) :=
              ih (.arrEls els (extKey p k)) f g (by simp [mea, vSize] at h0e ⊢; omega)
                (by simp [mea, vSize] at hfe ⊢; omega) (by simp [mea, vSize] at hge ⊢; omega)
            simp only [this, hrest]
          | vobj fs =>
            have : runF f (.val (.vobj fs) (extKey p k)) = runF g (.val (.vobj fs) (extKey p k)) :=
              ih (.val (.vobj fs) (extKey p k)) f g (by simp [mea] at h0e ⊢; omega)
                (by simp [mea] at hfe ⊢; omega) (by simp [mea] at hge ⊢; omega)
            simp only [this, hrest]
          | vstr s => simp only [hrest]
          | vnum q => simp only [hrest]
          | vbool b => simp only [hrest]
          | vnull => simp only [hrest]
          | vundef => simp only [hrest]
        | .idxItems [] i p => simp [runF]
        | .idxItems (el :: rest) i p =>
          simp only [runF]
          have h0e : 1 + vSize el + lSize rest ≤ n + 1 := by simpa [mea, lSize] using h0
          have hfe : 1 + vSize el + lSize rest < f + 1 := by simpa [mea, lSize] using hf
          have hge : 1 + vSize el + lSize rest < g + 1 := by simpa [mea, lSize] using hg
          have hrest : runF f (.idxItems rest (i + 1) p) = runF g (.idxItems rest (i + 1) p) :=
            ih (.idxItems rest (i + 1) p) f g (by simp [mea]; omega) (by simp [mea]; omega)
              (by simp [mea]; omega)
          cases el with
          | varr els =>
            have : runF f (.arrEls els (extKey p (natStr i)))
                = runF g (.arrEls els (extKey p (natStr i))) :=
              ih (.arrEls els (extKey p (natStr i))) f g (by simp [mea, vSize] at h0e ⊢; omega)
                (by simp [mea, vSize] at hfe ⊢; omega) (by simp [mea, vSize] at hge ⊢; omega)
            simp only [this, hrest]
          | vobj fs =>
            have : runF f (.val (.vobj fs) (extKey p (natStr i)))
                = runF g (.val (.vobj fs) (extKey p (natStr i))) :=
              ih (.val (.vobj fs) (extKey p (natStr i))) f g (by simp [mea] at h0e ⊢; omega)
                (by simp [mea] at hfe ⊢; omega) (by simp [mea] at hge ⊢; omega)
            simp only [this, hrest]
          | vstr s => simp only [hrest]
          | vnum q => simp only [hrest]
          | vbool b => simp only [hrest]
          | vnull => simp only [hrest]
          | vundef => simp only [hrest]
        | .arrEls [] key => simp [runF]
        | .arrEls (el :: rest) key =>
          simp only [runF]
          have h0e : 1 + vSize el + lSize rest ≤ n + 1 := by simpa [mea, lSize] using h0
          have hfe : 1 + vSize el + lSize rest < f + 1 := by simpa [mea, lSize] using hf
          have hge : 1 + vSize el + lSize rest < g + 1 := by simpa [mea, lSize] using hg
          have hrest : runF f (.arrEls rest key) = runF g (.arrEls rest key) :=
            ih (.arrEls rest key) f g (by simp [mea]; omega) (by simp [mea]; omega)
              (by simp [mea]; omega)
          cases el with
          | varr els =>
            have : runF f (.val (.varr els) key) = runF g (.val (.varr els) key) :=
              ih (.val (.varr els) key) f g (by simp [mea] at h0e ⊢; omega)
                (by simp [mea] at hfe ⊢; omega) (by simp [mea] at hge ⊢; omega)
            simp only [this, hrest]
          | vobj fs =>
            have : runF f (.val (.vobj fs) key) = runF g (.val (.vobj fs) key) :=
              ih (.val (.vobj fs) key) f g (by simp [mea] at h0e ⊢; omega)
                (by simp [mea] at hfe ⊢; omega) (by simp [mea] at hge ⊢; omega)
            simp only [this, hrest]
          | vstr s => simp only [hrest]
          | vnum q => simp only [hrest]
          | vbool b => simp only [hrest]
          | vnull => simp only [hrest]
          | vundef => simp only [hrest]

theorem runF_eq (f : Nat) (t : FTask) (h : mea t < f) : runF f t = runF (mea t + 1) t :=
  runF_congr (mea t) t f (mea t + 1) le_rfl h (by omega)

theorem flatten_vobj (fs : List (String × Value)) (p : String) :
    flatten (.vobj fs) p = sortTokens (flatItems fs p) := by
  show runF (vSize (.vobj fs) + 1) (.val (.vobj fs) p) = _
  have h : vSize (.vobj fs) + 1 = (1 + eSize fs) + 1 := by simp [vSize]
  rw [h]
  simp only [runF]
  congr 1
  exact runF_congr (eSize fs) (.items fs p) (1 + eSize fs) (eSize fs + 1) le_rfl
    (by simp [mea]) (by simp [mea])

theorem flatten_varr (xs : List Value) (p : String) :
    flatten (.varr xs) p = sortTokens (flatIdx xs 0 p) := by
  show runF (vSize (.varr xs) + 1) (.val (.varr xs) p) = _
  have h : vSize (.varr xs) + 1 = (1 + lSize xs) + 1 := by simp [vSize]
  rw [h]
  simp only [runF]
  congr 1
  exact runF_congr (lSize xs) (.idxItems xs 0 p) (1 + lSize xs) (lSize xs + 1) le_rfl
    (by simp [mea]) (by simp [mea])

theorem flatten_scalar (v : Value) (p : String)
    (h : ∀ fs, v ≠ .vobj fs) (h2 : ∀ xs, v ≠ .varr xs) :
    flatten v p = [tok (if p = "" then "value" else p) v] := by
  cases v with
  | vobj fs => exact absurd rfl (h fs)
  | varr xs => exact absurd rfl (h2 xs)
  | vstr s => rfl
  | vnum q => rfl
  | vbool b => rfl
  | vnull => rfl
  | vundef => rfl

theorem flatItems_nil (p : String) : flatItems [] p = [] := rfl

theorem flatItems_cons (k : String) (v : Value) (rest : List (String × Value)) (p : String) :
    flatItems ((k, v) :: rest) p = itemTok p k v ++ flatItems rest p := by
  show runF (eSize ((k, v) :: rest) + 1) (.items ((k, v) :: rest) p) = _
  have h : eSize ((k, v) :: rest) + 1 = (1 + vSize v + eSize rest) + 1 := by simp [eSize]
  rw [h]
  simp only [runF]
  congr 1
  · cases v with
    | vobj fs =>
      show runF (1 + vSize (.vobj fs) + eSize rest) (.val (.vobj fs) (extKey p k)) = _
      rw [runF_eq _ _ (by simp [mea]; omega)]
      rfl
    | varr els =>
      show runF (1 + vSize (.varr els) + eSize rest) (.arrEls els (extKey p k)) = _
      rw [runF_eq _ _ (by simp [mea, vSize]; omega)]
      rfl
    | vstr s => rfl
    | vnum q => rfl
    | vbool b => rfl
    | vnull => rfl
    | vundef => rfl
  · exact runF_congr (eSize rest) _ _ _ le_rfl (by simp [mea, eSize]) (by simp [mea])

theorem flatIdx_nil (i : Nat) (p : String) : flatIdx [] i p = [] := rfl

theorem flatIdx_cons (el : Value) (rest : List Value) (i : Nat) (p : String) :
    flatIdx (el :: rest) i p = idxTok p i el ++ flatIdx rest (i + 1) p := by
  show runF (lSize (el :: rest) + 1) (.idxItems (el :: rest) i p) = _
  have h : lSize (el :: rest) + 1 = (1 + vSize el + lSize rest) + 1 := by simp [lSize]
  rw [h]
  simp only [runF]
  congr 1
  · cases el with
    | vobj fs =>
      show runF (1 + vSize (.vobj fs) + lSize rest) (.val (.vobj fs) (extKey p (natStr i))) = _
      rw [runF_eq _ _ (by simp [mea]; omega)]
      rfl
    | varr els =>
      show runF (1 + vSize (.varr els) + lSize rest) (.arrEls els (extKey p (natStr i))) = _
      rw [runF_eq _ _ (by simp [mea, vSize]; omega)]
      rfl
    | vstr s => rfl
    | vnum q => rfl
    | vbool b => rfl
    | vnull => rfl
    | vundef => rfl
  · exact runF_congr (lSize rest) _ _ _ le_rfl (by simp [mea, lSize]) (by simp [mea])

theorem flatArrEls_nil (key : String) : flatArrEls [] key = [] := rfl

theorem flatArrEls_cons (el : Value) (rest : List Value) (key : String) :
    flatArrEls (el :: rest) key = arrElTok key el ++ flatArrEls rest key := by
  show runF (lSize (el :: rest) + 1) (.arrEls (el :: rest) key) = _
  have h : lSize (el :: rest) + 1 = (1 + vSize el + lSize rest) + 1 := by simp [lSize]
  rw [h]
  simp only [runF]
  congr 1
  · cases el with
    | vobj fs =>
      show runF (1 + vSize (.vobj fs) + lSize rest) (.val (.vobj fs) key) = _
      rw [runF_eq _ _ (by simp [mea]; omega)]
      rfl
    | varr els =>
      show runF (1 + vSize (.varr els) + lSize rest) (.val (.varr els) key) = _
      rw [runF_eq _ _ (by simp [mea]; omega)]
      rfl
    | vstr s => rfl
    | vnum q => rfl
    | vbool b => rfl
    | vnull => rfl
    | vundef => rfl
  · exact runF_congr (lSize rest) _ _ _ le_rfl (by simp [mea, lSize]) (by simp [mea])

theorem flatItems_eq_flatMap (l : List (String × Value)) (p : String) :
    flatItems l p = l.flatMap (fun kv => itemTok p kv.1 kv.2) := by
  induction l with
  | nil => rfl
  | cons kv rest ih =>
    obtain ⟨k, v⟩ := kv
    rw [flatItems_cons, ih, List.flatMap_cons]

theorem flatArrEls_eq_flatMap (l : List Value) (key : String) :
    flatArrEls l key = l.flatMap (arrElTok key) := by
  induction l with
  | nil => rfl
  | cons el rest ih => rw [flatArrEls_cons, ih, List.flatMap_cons]

/-! ## The token order and `Array.sort` -/

theorem charToNat_inj {a b : Char} (h : a.toNat = b.toNat) : a = b := by
  exact_mod_cast Char.ofNat_toNat a ▸ Char.ofNat_toNat b ▸ congrArg Char.ofNat h

theorem chLe_total : ∀ a b : List Char, chLe a b = true ∨ chLe b a = true := by
  intro a
  induction a with
  | nil => intro b; left; rfl
  | cons c cs ih =>
    intro b
    cases b with
    | nil => right; rfl
    | cons d ds =>
      by_cases h : c.toNat = d.toNat
      · rcases ih ds with h2 | h2
        · left; simp [chLe, h, h2]
        · right; simp [chLe, h.symm, h2]
      · rcases Nat.lt_or_ge c.toNat d.toNat with h2 | h2
        · left
          simp only [chLe, if_neg h, decide_eq_true_eq]
          exact h2
        · right
          have hne : ¬ d.toNat = c.toNat := fun hh => h hh.symm
          simp only [chLe, if_neg hne, decide_eq_true_eq]
          omega

theorem chLe_trans :
    ∀ a b c : List Char, chLe a b = true → chLe b c = true → chLe a c = true := by
  intro a
  induction a with
  | nil => intro b c _ _; rfl
  | cons x xs ih =>
    intro b c hab hbc
    cases b with
    | nil => simp [chLe] at hab
    | cons y ys =>
      cases c with
      | nil => simp [chLe] at hbc
      | cons z zs =>
        by_cases hxy : x.toNat = y.toNat <;> by_cases hyz : y.toNat = z.toNat
        · simp only [chLe, if_pos hxy] at hab
          simp only [chLe, if_pos hyz] at hbc
          simp only [chLe, if_pos (hxy.trans hyz)]
          exact ih ys zs hab hbc
        · simp only [chLe, if_neg hyz, decide_eq_true_eq] at hbc
          have hxz : ¬ x.toNat = z.toNat := by omega
          simp only [chLe, if_neg hxz, decide_eq_true_eq]
          omega
        · simp only [chLe, if_neg hxy, decide_eq_true_eq] at hab
          have hxz : ¬ x.toNat = z.toNat := by omega
          simp only [chLe, if_neg hxz, decide_eq_true_eq]
          omega
        · simp only [chLe, if_neg hxy, decide_eq_true_eq] at hab
          simp only [chLe, if_neg hyz, decide_eq_true_eq] at hbc
          have hxz : ¬ x.toNat = z.toNat := by omega
          simp only [chLe, if_neg hxz, decide_eq_true_eq]
          omega

theorem chLe_antisymm :
    ∀ a b : List Char, chLe a b = true → chLe b a = true → a = b := by
  intro a
  induction a with
  | nil =>
    intro b _ hba
    cases b with
    | nil => rfl
    | cons d ds => simp [chLe] at hba
  | cons c cs ih =>
    intro b hab hba
    cases b with
    | nil => simp [chLe] at hab
    | cons d ds =>
      by_cases h : c.toNat = d.toNat
      · have := ih ds (by simpa [chLe, h] using hab) (by simpa [chLe, h.symm] using hba)
        rw [charToNat_inj h, this]
      · simp only [chLe, if_neg h, decide_eq_true_eq] at hab
        simp only [chLe, if_neg (fun hh : d.toNat = c.toNat => h hh.symm),
          decide_eq_true_eq] at hba
        omega

theorem strEq_of_data {a b : String} (h : a.data = b.data) : a = b := by
  cases a; cases b; exact congrArg String.mk h

instance : IsTotal String tokRel :=
  ⟨fun a b => chLe_total a.data b.data⟩

instance : IsTrans String tokRel :=
  ⟨fun a b c hab hbc => chLe_trans a.data b.data c.data hab hbc⟩

instance : IsAntisymm String tokRel :=
  ⟨fun a b hab hba => strEq_of_data (chLe_antisymm a.data b.data hab hba)⟩

theorem sortTokens_perm (l : List String) : (sortTokens l).Perm l :=
  List.perm_insertionSort tokRel l

theorem sortTokens_sorted (l : List String) : (sortTokens l).Sorted tokRel :=
  List.sorted_insertionSort tokRel l

theorem sortTokens_congr {l m : List String} (h : l.Perm m) : sortTokens l = sortTokens m :=
  List.eq_of_perm_of_sorted
    ((sortTokens_perm l).trans (h.trans (sortTokens_perm m).symm))
    (sortTokens_sorted l) (sortTokens_sorted m)

theorem flatten_sorted (v : Value) (p : String) : (flatten v p).Sorted tokRel := by
  cases v with
  | vobj fs => rw [flatten_vobj]; exact sortTokens_sorted _
  | varr xs => rw [flatten_varr]; exact sortTokens_sorted _
  | vstr s => exact List.sorted_singleton _
  | vnum q => exact List.sorted_singleton _
  | vbool b => exact List.sorted_singleton _
  | vnull => exact List.sorted_singleton _
  | vundef => exact List.sorted_singleton _

theorem flatten_congr_of_perm {v w : Value} (p : String)
    (hv : (flatten v p).Perm (flatten w p)) :
    flatten v p = flatten w p :=
  List.eq_of_perm_of_sorted hv (flatten_sorted v p) (flatten_sorted w p)

/-! ## Key-order congruence of the signer -/

theorem keyPerm_cases (v w : Value) (h : KeyPerm v w) :
    (∃ xs ys, v = .varr xs ∧ w = .varr ys ∧ KPL xs ys) ∨
      (∃ l1 l2 mid, v = .vobj l1 ∧ w = .vobj l2 ∧ KPE l1 mid ∧ mid.Perm l2) ∨ v = w := by
  cases v <;> cases w <;>
    first
    | (left; exact ⟨_, _, rfl, rfl, h⟩)
    | (right; left
       obtain ⟨mid, h1, h2⟩ := h
       exact ⟨_, _, mid, rfl, rfl, h1, h2⟩)
    | (right; right; exact h)

theorem flatItems_perm_right (p : String) {l m : List (String × Value)} (h : l.Perm m) :
    (flatItems l p).Perm (flatItems m p) := by
  rw [flatItems_eq_flatMap, flatItems_eq_flatMap]
  exact h.flatMap_right _

theorem flatArrEls_perm_right (key : String) {l m : List Value} (h : l.Perm m) :
    (flatArrEls l key).Perm (flatArrEls m key) := by
  rw [flatArrEls_eq_flatMap, flatArrEls_eq_flatMap]
  exact h.flatMap_right _

theorem kp_main :
    ∀ n : Nat,
      (∀ v w p, vSize v ≤ n → KeyPerm v w → (flatten v p).Perm (flatten w p)) ∧
        (∀ l m p, eSize l ≤ n → KPE l m → (flatItems l p).Perm (flatItems m p)) ∧
        (∀ l m key, lSize l ≤ n → KPL l m → (flatArrEls l key).Perm (flatArrEls m key)) ∧
        (∀ l m i p, lSize l ≤ n → KPL l m → (flatIdx l i p).Perm (flatIdx m i p)) := by
  intro n
  induction n with
  | zero =>
    refine ⟨?_, ?_, ?_, ?_⟩
    · intro v w p hs
      exact absurd hs (by have := vSize_pos v; omega)
    · intro l m p hs he
      cases l with
      | nil =>
        cases m with
        | nil => exact List.Perm.refl _
        | cons b bs => exact he.elim
      | cons a as => exact absurd hs (by obtain ⟨k, v⟩ := a; simp [eSize])
    · intro l m key hs hl
      cases l with
      | nil =>
        cases m with
        | nil => exact List.Perm.refl _
        | cons b bs => exact hl.elim
      | cons a as => exact absurd hs (by simp [lSize])
    · intro l m i p hs hl
      cases l with
      | nil =>
        cases m with
        | nil => exact List.Perm.refl _
        | cons b bs => exact hl.elim
      | cons a as => exact absurd hs (by simp [lSize])
  | succ n ih =>
    obtain ⟨ih1, ih2, ih3, ih4⟩ := ih
    refine ⟨?_, ?_, ?_, ?_⟩
    · intro v w p hs hkp
      rcases keyPerm_cases v w hkp with ⟨xs, ys, rfl, rfl, hl⟩ |
        ⟨l1, l2, mid, rfl, rfl, he, hperm⟩ | rfl
      · rw [flatten_varr, flatten_varr]
        have h1 : (flatIdx xs 0 p).Perm (flatIdx ys 0 p) :=
          ih4 xs ys 0 p (by simp [vSize] at hs; omega) hl
        exact (sortTokens_perm _).trans (h1.trans (sortTokens_perm _).symm)
      · rw [flatten_vobj, flatten_vobj]
        have h1 : (flatItems l1 p).Perm (flatItems mid p) :=
          ih2 l1 mid p (by simp [vSize] at hs; omega) he
        have h2 : (flatItems mid p).Perm (flatItems l2 p) := flatItems_perm_right p hperm
        exact (sortTokens_perm _).trans ((h1.trans h2).trans (sortTokens_perm _).symm)
      · exact List.Perm.refl _
    · intro l m p hs he
      cases l with
      | nil =>
        cases m with
        | nil => exact List.Perm.refl _
        | cons b bs => exact he.elim
      | cons a as =>
        obtain ⟨k, v⟩ := a
        cases m with
        | nil => exact he.elim
        | cons b bs =>
          obtain ⟨k2, v2⟩ := b
          obtain ⟨hk, hvv, hrest⟩ := he
          subst hk
          rw [flatItems_cons, flatItems_cons]
          have hsv : vSize v ≤ n := by simp [eSize] at hs; omega
          have hitem : (itemTok p k v).Perm (itemTok p k v2) := by
            rcases keyPerm_cases v v2 hvv with ⟨xs, ys, rfl, rfl, hl⟩ |
              ⟨l1, l2, mid, rfl, rfl, he2, hperm⟩ | rfl
            · show (flatArrEls xs (extKey p k)).Perm (flatArrEls ys (extKey p k))
              exact ih3 xs ys _ (by simp [vSize] at hsv; omega) hl
            · show (flatten (.vobj l1) (extKey p k)).Perm (flatten (.vobj l2) (extKey p k))
              exact ih1 _ _ _ hsv ⟨mid, he2, hperm⟩
            · exact List.Perm.refl _
          exact hitem.append (ih2 as bs p (by simp [eSize] at hs; omega) hrest)
    · intro l m key hs hl
      cases l with
      | nil =>
        cases m with
        | nil => exact List.Perm.refl _
        | cons b bs => exact hl.elim
      | cons el rest =>
        cases m with
        | nil => exact hl.elim
        | cons el2 rest2 =>
          obtain ⟨hvv, hrest⟩ := hl
          rw [flatArrEls_cons, flatArrEls_cons]
          have hsv : vSize el ≤ n := by simp [lSize] at hs; omega
          have hitem : (arrElTok key el).Perm (arrElTok key el2) := by
            rcases keyPerm_cases el el2 hvv with ⟨xs, ys, rfl, rfl, hl2⟩ |
              ⟨l1, l2, mid, rfl, rfl, he2, hperm⟩ | rfl
            · show (flatten (.varr xs) key).Perm (flatten (.varr ys) key)
              exact ih1 _ _ _ hsv hl2
            · show (flatten (.vobj l1) key).Perm (flatten (.vobj l2) key)
              exact ih1 _ _ _ hsv ⟨mid, he2, hperm⟩
            · exact List.Perm.refl _
          exact hitem.append (ih3 rest rest2 key (by simp [lSize] at hs; omega) hrest)
    · intro l m i p hs hl
      cases l with
      | nil =>
        cases m with
        | nil => exact List.Perm.refl _
        | cons b bs => exact hl.elim
      | cons el rest =>
        cases m with
        | nil => exact hl.elim
        | cons el2 rest2 =>
          obtain ⟨hvv, hrest⟩ := hl
          rw [flatIdx_cons, flatIdx_cons]
          have hsv : vSize el ≤ n := by simp [lSize] at hs; omega
          have hitem : (idxTok p i el).Perm (idxTok p i el2) := by
            rcases keyPerm_cases el el2 hvv with ⟨xs, ys, rfl, rfl, hl2⟩ |
              ⟨l1, l2, mid, rfl, rfl, he2, hperm⟩ | rfl
            · show (flatArrEls xs (extKey p (natStr i))).Perm (flatArrEls ys (extKey p (natStr i)))
              exact ih3 xs ys _ (by simp [vSize] at hsv; omega) hl2
            · show (flatten (.vobj l1) (extKey p (natStr i))).Perm
                (flatten (.vobj l2) (extKey p (natStr i)))
              exact ih1 _ _ _ hsv ⟨mid, he2, hperm⟩
            · exact List.Perm.refl _
          exact hitem.append (ih4 rest rest2 (i + 1) p (by simp [lSize] at hs; omega) hrest)

theorem flatten_keyPerm {v w : Value} (p : String) (h : KeyPerm v w) :
    flatten v p = flatten w p :=
  flatten_congr_of_perm p ((kp_main (vSize v)).1 v w p le_rfl h)

theorem signCalc_keyPerm {v w : Value} (h : KeyPerm v w) : signCalc v = signCalc w := by
  unfold signCalc
  rw [flatten_keyPerm "" h]

/-! ## Decimal rendering and parsing lemmas -/

theorem natToChsF_stable :
    ∀ (n f g : Nat), n < f → n < g → natToChsF f n = natToChsF g n := by
  intro n
  induction n using Nat.strong_induction_on with
  | _ n ih =>
    intro f g hf hg
    cases f with
    | zero => omega
    | succ f =>
      cases g with
      | zero => omega
      | succ g =>
        simp only [natToChsF]
        by_cases h : n < 10
        · rw [if_pos h, if_pos h]
        · rw [if_neg h, if_neg h]
          congr 1
          exact ih (n / 10) (by omega) f g (by omega) (by omega)

theorem natToChs_eq (n : Nat) :
    natToChs n = if n < 10 then [digitToCh n] else natToChs (n / 10) ++ [digitToCh (n % 10)] := by
  show natToChsF (n + 1) n = _
  simp only [natToChsF]
  by_cases h : n < 10
  · rw [if_pos h, if_pos h]
  · rw [if_neg h, if_neg h]
    congr 1
    exact natToChsF_stable (n / 10) n (n / 10 + 1) (by omega) (by omega)

theorem digitToCh_toNat : ∀ n < 10, (digitToCh n).toNat = 48 + n := by decide

theorem digitToCh_isDigit : ∀ n < 10, (digitToCh n).isDigit = true := by decide

theorem natToChs_ne_nil (n : Nat) : natToChs n ≠ [] := by
  rw [natToChs_eq]
  split
  · simp
  · simp

theorem natToChs_digits (n : Nat) : ∀ c ∈ natToChs n, c.isDigit = true := by
  induction n using Nat.strong_induction_on with
  | _ n ih =>
    rw [natToChs_eq]
    by_cases h : n < 10
    · rw [if_pos h]
      intro c hc
      rw [List.mem_singleton] at hc
      subst hc
      exact digitToCh_isDigit n h
    · rw [if_neg h]
      intro c hc
      rw [List.mem_append] at hc
      rcases hc with hc | hc
      · exact ih (n / 10) (by omega) c hc
      · rw [List.mem_singleton] at hc
        subst hc
        exact digitToCh_isDigit (n % 10) (by omega)

theorem digitsVal_from (a : Nat) (l : List Char) :
    l.foldl (fun a c => a * 10 + (c.toNat - 48)) a = a * 10 ^ l.length + digitsVal l := by
  induction l generalizing a with
  | nil => simp [digitsVal]
  | cons c cs ih =>
    simp only [List.foldl_cons, digitsVal, List.length_cons]
    rw [ih (a * 10 + (c.toNat - 48)), ih (0 * 10 + (c.toNat - 48))]
    ring

theorem digitsVal_append (a b : List Char) :
    digitsVal (a ++ b) = digitsVal a * 10 ^ b.length + digitsVal b := by
  unfold digitsVal
  rw [List.foldl_append]
  exact digitsVal_from _ b

theorem digitsVal_natToChs (n : Nat) : digitsVal (natToChs n) = n := by
  induction n using Nat.strong_induction_on with
  | _ n ih =>
    rw [natToChs_eq]
    by_cases h : n < 10
    · rw [if_pos h]
      have hc := digitToCh_toNat n h
      simp [digitsVal, hc]
    · rw [if_neg h, digitsVal_append, ih (n / 10) (by omega)]
      have hc := digitToCh_toNat (n % 10) (by omega)
      simp [digitsVal, hc]
      omega

theorem natToChs_len_le (n k : Nat) (h : n < 10 ^ k) (hk : 1 ≤ k) :
    (natToChs n).length ≤ k := by
  induction n using Nat.strong_induction_on generalizing k with
  | _ n ih =>
    rw [natToChs_eq]
    by_cases h10 : n < 10
    · rw [if_pos h10]
      simpa using hk
    · rw [if_neg h10]
      have hk2 : 2 ≤ k := by
        by_contra hlt
        have hk1 : k = 1 := by omega
        rw [hk1] at h
        norm_num at h
        omega
      have hpow : 10 ^ k = 10 * 10 ^ (k - 1) := by
        calc 10 ^ k = 10 ^ (k - 1 + 1) := by rw [Nat.sub_add_cancel (by omega : 1 ≤ k)]
        _ = 10 ^ (k - 1) * 10 := pow_succ 10 (k - 1)
        _ = 10 * 10 ^ (k - 1) := by ring
      have hdiv : n / 10 < 10 ^ (k - 1) := by omega
      have := ih (n / 10) (by omega) (k - 1) hdiv (by omega)
      simp only [List.length_append, List.length_singleton]
      omega

theorem digitsVal_replicate_zero (m : Nat) : digitsVal (List.replicate m '0') = 0 := by
  induction m with
  | zero => rfl
  | succ m ih =>
    rw [List.replicate_succ]
    show digitsVal ('0' :: List.replicate m '0') = 0
    unfold digitsVal at ih ⊢
    rw [List.foldl_cons, digitsVal_from]
    simpa [digitsVal] using ih

theorem padDigits_len (e x : Nat) (h : (natToChs x).length ≤ e) :
    (padDigits e x).length = e := by
  simp [padDigits]
  omega

theorem padDigits_digits (e x : Nat) : ∀ c ∈ padDigits e x, c.isDigit = true := by
  intro c hc
  rw [padDigits, List.mem_append] at hc
  rcases hc with hc | hc
  · rw [List.eq_of_mem_replicate hc]
    decide
  · exact natToChs_digits x c hc

theorem digitsVal_padDigits (e x : Nat) : digitsVal (padDigits e x) = x := by
  rw [padDigits, digitsVal_append, digitsVal_replicate_zero, digitsVal_natToChs]
  ring

theorem isDigit_ne_dot {c : Char} (h : c.isDigit = true) : c ≠ '.' := by
  intro hc
  subst hc
  revert h
  decide

theorem isDigit_ne_minus {c : Char} (h : c.isDigit = true) : c ≠ '-' := by
  intro hc
  subst hc
  revert h
  decide

theorem takeWhile_all {p : Char → Bool} :
    ∀ l : List Char, (∀ c ∈ l, p c = true) → l.takeWhile p = l := by
  intro l h
  induction l with
  | nil => rfl
  | cons c cs ih =>
    rw [List.takeWhile_cons, h c (by simp)]
    rw [ih (fun d hd => h d (by simp [hd]))]
    simp

theorem takeWhile_append_stop {p : Char → Bool} {x : Char} (hx : p x = false) :
    ∀ (a b : List Char), (∀ c ∈ a, p c = true) → (a ++ x :: b).takeWhile p = a := by
  intro a
  induction a with
  | nil =>
    intro b _
    simp [List.takeWhile_cons, hx]
  | cons c cs ih =>
    intro b h
    rw [List.cons_append, List.takeWhile_cons, h c (by simp)]
    rw [ih b (fun d hd => h d (by simp [hd]))]
    simp

theorem parsePos_digits (l : List Char) (hne : l ≠ []) (hd : ∀ c ∈ l, c.isDigit = true) :
    parsePosChs l = some (mkRat (digitsVal l) 1) := by
  unfold parsePosChs
  have htw : l.takeWhile (fun c => c ≠ '.') = l :=
    takeWhile_all l (fun c hc => by simp [isDigit_ne_dot (hd c hc)])
  rw [htw]
  rw [if_neg (by simp [hne, List.all_eq_true]; intro c hc; exact hd c hc)]
  rw [List.drop_length]

theorem parsePos_digits_dot (a b : List Char) (hane : a ≠ []) (hbne : b ≠ [])
    (hda : ∀ c ∈ a, c.isDigit = true) (hdb : ∀ c ∈ b, c.isDigit = true) :
    parsePosChs (a ++ '.' :: b)
      = some (mkRat (digitsVal a * 10 ^ b.length + digitsVal b) (10 ^ b.length)) := by
  unfold parsePosChs
  have htw : (a ++ '.' :: b).takeWhile (fun c => c ≠ '.') = a := by
    apply takeWhile_append_stop (by simp)
    intro c hc
    simp [isDigit_ne_dot (hda c hc)]
  rw [htw]
  rw [if_neg (by simp [hane, List.all_eq_true]; intro c hc; exact hda c hc)]
  rw [List.drop_left]
  simp only []
  rw [if_pos ⟨hbne, by rw [List.all_eq_true]; intro c hc; exact hdb c hc⟩]

theorem parseNumChs_not_minus (l : List Char)
    (h : ∀ c cs, l = c :: cs → c ≠ '-') : parseNumChs l = parsePosChs l := by
  cases l with
  | nil =>
    unfold parseNumChs parsePosChs
    simp
  | cons c cs =>
    unfold parseNumChs
    dsimp only
    rw [if_neg (h c cs rfl)]

theorem den_dvd_pow10 (q : ℚ) (h : isDecimalB q = true) :
    q.den ∣ 10 ^ max (countFac 2 q.den) (countFac 5 q.den) := by
  rw [isDecimalB, beq_iff_eq] at h
  calc q.den = 2 ^ countFac 2 q.den * 5 ^ countFac 5 q.den := h.symm
  _ ∣ 2 ^ max (countFac 2 q.den) (countFac 5 q.den)
      * 5 ^ max (countFac 2 q.den) (countFac 5 q.den) :=
    mul_dvd_mul (pow_dvd_pow 2 (le_max_left _ _)) (pow_dvd_pow 5 (le_max_right _ _))
  _ = 10 ^ max (countFac 2 q.den) (countFac 5 q.den) := by
    rw [← mul_pow]
    norm_num

theorem den_one_of_e_zero (q : ℚ) (h : isDecimalB q = true)
    (he : max (countFac 2 q.den) (countFac 5 q.den) = 0) : q.den = 1 := by
  have := den_dvd_pow10 q h
  rw [he] at this
  simpa using this

theorem padDigits_ne_nil (e x : Nat) : padDigits e x ≠ [] := by
  simp [padDigits, natToChs_ne_nil]

theorem parsePos_numToStringPos (N d : Nat) (hd : 0 < d) (hdvd : d ∣ 10 ^ decExp d) :
    parsePosChs (numToStringPos N d) = some ((N : ℚ) / (d : ℚ)) := by
  have hmd : N * 10 ^ decExp d / d * d = N * 10 ^ decExp d :=
    Nat.div_mul_cancel (hdvd.mul_left N)
  unfold numToStringPos
  by_cases he : decExp d = 0
  · rw [if_pos he]
    rw [parsePos_digits _ (natToChs_ne_nil _) (natToChs_digits _)]
    have hd1 : d = 1 := Nat.dvd_one.mp (by rw [he] at hdvd; simpa using hdvd)
    rw [digitsVal_natToChs]
    subst hd1
    rw [he]
    norm_num [Rat.mkRat_one]
  · rw [if_neg he]
    have hmod : N * 10 ^ decExp d / d % 10 ^ decExp d < 10 ^ decExp d :=
      Nat.mod_lt _ (Nat.pos_pow_of_pos _ (by omega))
    have hlen : (padDigits (decExp d) (N * 10 ^ decExp d / d % 10 ^ decExp d)).length
        = decExp d :=
      padDigits_len _ _ (natToChs_len_le _ _ hmod (by omega))
    rw [parsePos_digits_dot _ _ (natToChs_ne_nil _) (padDigits_ne_nil _ _)
      (natToChs_digits _) (padDigits_digits _ _)]
    rw [hlen, digitsVal_natToChs, digitsVal_padDigits]
    have hsum : ((N * 10 ^ decExp d / d / 10 ^ decExp d : Nat) : ℤ) * (10 : ℤ) ^ decExp d
        + ((N * 10 ^ decExp d / d % 10 ^ decExp d : Nat) : ℤ)
        = ((N * 10 ^ decExp d / d : Nat) : ℤ) := by
      exact_mod_cast Nat.div_add_mod' (N * 10 ^ decExp d / d) (10 ^ decExp d)
    rw [show (((N * 10 ^ decExp d / d / 10 ^ decExp d : Nat) : ℤ) * 10 ^ decExp d
        + ((N * 10 ^ decExp d / d % 10 ^ decExp d : Nat) : ℤ))
        = ((N * 10 ^ decExp d / d : Nat) : ℤ) from hsum]
    rw [Rat.mkRat_eq_div]
    congr 1
    rw [div_eq_div_iff (by positivity) (by positivity)]
    push_cast
    exact_mod_cast congrArg (fun n : Nat => (n : ℚ)) hmd

theorem numToStringPos_chars (N d : Nat) :
    ∀ c ∈ numToStringPos N d, c.isDigit = true ∨ c = '.' := by
  intro c hc
  unfold numToStringPos at hc
  by_cases he : decExp d = 0
  · rw [if_pos he] at hc
    exact Or.inl (natToChs_digits _ c hc)
  · rw [if_neg he] at hc
    rw [List.mem_append] at hc
    rcases hc with hc | hc
    · exact Or.inl (natToChs_digits _ c hc)
    · rw [List.mem_cons] at hc
      rcases hc with hc | hc
      · exact Or.inr hc
      · exact Or.inl (padDigits_digits _ _ c hc)

theorem numToStringPos_ne_nil (N d : Nat) : numToStringPos N d ≠ [] := by
  unfold numToStringPos
  by_cases he : decExp d = 0
  · rw [if_pos he]
    exact natToChs_ne_nil _
  · rw [if_neg he]
    simp [natToChs_ne_nil]

theorem parseNum_numToString (q : ℚ) (h : isDecimalB q = true) :
    parseNum (numToString q) = some q := by
  have hdvd : q.den ∣ 10 ^ decExp q.den := den_dvd_pow10 q h
  have hbody := parsePos_numToStringPos q.num.natAbs q.den q.pos hdvd
  show parseNumChs ((if q.num < 0 then ['-'] else []) ++ numToStringPos q.num.natAbs q.den)
    = some q
  by_cases hneg : q.num < 0
  · rw [if_pos hneg]
    show parseNumChs ('-' :: numToStringPos q.num.natAbs q.den) = some q
    unfold parseNumChs
    dsimp only
    rw [if_pos rfl, hbody]
    show some (-((q.num.natAbs : ℚ) / (q.den : ℚ))) = some q
    rw [Option.some.injEq]
    have habs2 : ((q.num.natAbs : ℚ)) = -(q.num : ℚ) := by
      rw [Int.cast_natAbs, abs_of_nonpos (le_of_lt hneg), Int.cast_neg]
    rw [habs2, neg_div, neg_neg]
    exact Rat.num_div_den q
  · rw [if_neg hneg]
    rw [List.nil_append]
    rw [parseNumChs_not_minus _ ?hmin, hbody]
    case hmin =>
      intro c cs hc
      have hcmem : c ∈ numToStringPos q.num.natAbs q.den := by
        rw [hc]
        exact List.mem_cons_self c cs
      rcases numToStringPos_chars _ _ c hcmem with hd | hd
      · exact isDigit_ne_minus hd
      · rw [hd]
        decide
    rw [Option.some.injEq]
    have habs2 : ((q.num.natAbs : ℚ)) = (q.num : ℚ) := by
      rw [Int.cast_natAbs, abs_of_nonneg (le_of_not_lt hneg)]
    rw [habs2]
    exact Rat.num_div_den q

/-! ## Derived decimal facts and character utilities -/

theorem isNumericS_numToString (q : ℚ) (h : isDecimalB q = true) :
    isNumericS (numToString q) = true := by
  unfold isNumericS
  rw [parseNum_numToString q h]
  rfl

theorem numOf_numToString (q : ℚ) (h : isDecimalB q = true) :
    numOf (numToString q) = q := by
  unfold numOf
  rw [parseNum_numToString q h]
  rfl

theorem numToString_chars (q : ℚ) :
    ∀ c ∈ (numToString q).data, c.isDigit = true ∨ c = '.' ∨ c = '-' := by
  intro c hc
  have hc2 : c ∈ (if q.num < 0 then ['-'] else []) ++ numToStringPos q.num.natAbs q.den := hc
  rcases List.mem_append.mp hc2 with h1 | h1
  · right; right
    by_cases hneg : q.num < 0
    · rw [if_pos hneg] at h1; simpa using h1
    · rw [if_neg hneg] at h1; simp at h1
  · rcases numToStringPos_chars _ _ c h1 with hd | hd
    · left; exact hd
    · right; left; exact hd

theorem numToString_ne_empty (q : ℚ) : numToString q ≠ "" := by
  intro h
  have h2 : ((if q.num < 0 then ['-'] else []) ++ numToStringPos q.num.natAbs q.den) = [] :=
    congrArg String.data h
  rcases List.append_eq_nil.mp h2 with ⟨_, h3⟩
  exact numToStringPos_ne_nil _ _ h3

theorem numToString_ne (q : ℚ) (s : String) (c : Char) (hc : c ∈ s.data)
    (hbad : ¬ (c.isDigit = true ∨ c = '.' ∨ c = '-')) : numToString q ≠ s := by
  intro h
  exact hbad (numToString_chars q c (h ▸ hc))

theorem char_toNat_lt (c : Char) : c.toNat < 1114112 := by
  have h := c.valid
  rcases h with h | h <;> (show c.val.toNat < 1114112) <;> omega

theorem contains_eq_false_of_forall {l : List Char} {a : Char} (h : ∀ c ∈ l, c ≠ a) :
    l.contains a = false := by
  rw [← Bool.not_eq_true, List.elem_iff]
  intro hm
  exact h a hm rfl

theorem forall_of_contains_eq_false {l : List Char} {a : Char} (h : l.contains a = false) :
    ∀ c ∈ l, c ≠ a := by
  intro c hc he
  subst he
  rw [← Bool.not_eq_true, List.elem_iff] at h
  exact h hc

theorem dropWhile_all_neg {p : Char → Bool} (l : List Char) (h : ∀ c ∈ l, p c = false) :
    l.dropWhile p = l := by
  cases l with
  | nil => rfl
  | cons c cs => rw [List.dropWhile_cons, h c (List.mem_cons_self c cs)]; rfl

theorem trimCh_no_ws (l : List Char) (h : ∀ c ∈ l, isWs c = false) : trimCh l = l := by
  unfold trimCh
  rw [dropWhile_all_neg l h,
    dropWhile_all_neg _ (fun c hc => h c (List.mem_reverse.mp hc)), List.reverse_reverse]

theorem sTrim_no_ws (s : String) (h : ∀ c ∈ s.data, isWs c = false) : sTrim s = s := by
  apply strEq_of_data
  show trimCh s.data = s.data
  exact trimCh_no_ws s.data h

/-! ## UTF-8 and percent-coding lemmas -/

theorem utf8Dec_cons (b : Nat) (bs : List Nat) :
    utf8Dec (b :: bs) =
      if b < 128 then (utf8Dec bs).map (b :: ·)
      else if b < 192 then none
      else if b < 224 then
        match bs with
        | b1 :: bs1 =>
          if 128 ≤ b1 ∧ b1 < 192 then
            (utf8Dec bs1).map (((b - 192) * 64 + (b1 - 128)) :: ·)
          else none
        | [] => none
      else if b < 240 then
        match bs with
        | b1 :: b2 :: bs2 =>
          if (128 ≤ b1 ∧ b1 < 192) ∧ (128 ≤ b2 ∧ b2 < 192) then
            (utf8Dec bs2).map (((b - 224) * 4096 + (b1 - 128) * 64 + (b2 - 128)) :: ·)
          else none
        | _ => none
      else if b < 248 then
        match bs with
        | b1 :: b2 :: b3 :: bs3 =>
          if (128 ≤ b1 ∧ b1 < 192) ∧ (128 ≤ b2 ∧ b2 < 192) ∧ (128 ≤ b3 ∧ b3 < 192) then
            (utf8Dec bs3).map
              (((b - 240) * 262144 + (b1 - 128) * 4096 + (b2 - 128) * 64 + (b3 - 128)) :: ·)
          else none
        | _ => none
      else none := by
  cases bs with
  | nil => rfl
  | cons b1 bs1 =>
    cases bs1 with
    | nil => rfl
    | cons b2 bs2 =>
      cases bs2 with
      | nil => rfl
      | cons b3 bs3 => rfl

theorem utf8Dec_enc (n : Nat) (hn : n < 1114112) (bs : List Nat) :
    utf8Dec (utf8Enc n ++ bs) = (utf8Dec bs).map (n :: ·) := by
  unfold utf8Enc
  by_cases h1 : n < 128
  · rw [if_pos h1]
    show utf8Dec (n :: bs) = _
    rw [utf8Dec_cons, if_pos h1]
  · rw [if_neg h1]
    by_cases h2 : n < 2048
    · rw [if_pos h2]
      show utf8Dec ((192 + n / 64) :: (128 + n % 64) :: bs) = _
      rw [utf8Dec_cons, if_neg (by omega), if_neg (by omega), if_pos (by omega)]
      dsimp only
      rw [if_pos (by omega)]
      have he : (192 + n / 64 - 192) * 64 + (128 + n % 64 - 128) = n := by omega
      rw [he]
    · rw [if_neg h2]
      by_cases h3 : n < 65536
      · rw [if_pos h3]
        show utf8Dec ((224 + n / 4096) :: (128 + n / 64 % 64) :: (128 + n % 64) :: bs) = _
        rw [utf8Dec_cons, if_neg (by omega), if_neg (by omega), if_neg (by omega),
          if_pos (by omega)]
        dsimp only
        rw [if_pos (by constructor <;> constructor <;> omega)]
        have he : (224 + n / 4096 - 224) * 4096 + (128 + n / 64 % 64 - 128) * 64 +
            (128 + n % 64 - 128) = n := by omega
        rw [he]
      · rw [if_neg h3]
        show utf8Dec ((240 + n / 262144) :: (128 + n / 4096 % 64) :: (128 + n / 64 % 64) ::
          (128 + n % 64) :: bs) = _
        rw [utf8Dec_cons, if_neg (by omega), if_neg (by omega), if_neg (by omega),
          if_neg (by omega), if_pos (by omega)]
        dsimp only
        rw [if_pos (by refine ⟨⟨?_, ?_⟩, ⟨?_, ?_⟩, ?_, ?_⟩ <;> omega)]
        have he : (240 + n / 262144 - 240) * 262144 + (128 + n / 4096 % 64 - 128) * 4096 +
            (128 + n / 64 % 64 - 128) * 64 + (128 + n % 64 - 128) = n := by omega
        rw [he]

theorem pctBytes_cons (c : Char) (rest : List Char) :
    pctBytes (c :: rest) =
      if c = '%' then
        match rest with
        | h1 :: h2 :: rest2 =>
          match hexChVal h1, hexChVal h2 with
          | some v1, some v2 => (pctBytes rest2).map ((v1 * 16 + v2) :: ·)
          | _, _ => none
        | _ => none
      else (pctBytes rest).map (utf8Enc c.toNat ++ ·) := by
  by_cases hc : c = '%'
  · subst hc
    rw [if_pos rfl]
    cases rest with
    | nil => rfl
    | cons h1 rest1 =>
      cases rest1 with
      | nil => rfl
      | cons h2 rest2 => rfl
  · rw [if_neg hc, pctBytes.eq_def]
    split
    · rename_i heq
      exact absurd heq (List.cons_ne_nil c rest)
    · rename_i rest2 heq
      injection heq with h1 h2
      exact absurd h1 hc
    · rename_i c2 rest2 heq
      injection heq with h1 h2
      subst h1
      subst h2
      rfl

theorem utf8Enc_lt (n : Nat) (hn : n < 1114112) : ∀ b ∈ utf8Enc n, b < 256 := by
  intro b hb
  unfold utf8Enc at hb
  split at hb
  · simp at hb; omega
  · split at hb
    · simp [List.mem_cons] at hb; rcases hb with h | h <;> omega
    · split at hb
      · simp [List.mem_cons] at hb; rcases hb with h | h | h <;> omega
      · simp [List.mem_cons] at hb; rcases hb with h | h | h | h <;> omega

theorem utf8Enc_ne_nil (n : Nat) : utf8Enc n ≠ [] := by
  unfold utf8Enc
  split
  · simp
  · split
    · simp
    · split <;> simp

theorem hexChVal_hexCh : ∀ n < 16, hexChVal (hexCh n) = some n := by decide

theorem pctBytes_escapes (bytes : List Nat) (hb : ∀ b ∈ bytes, b < 256) (rest : List Char) :
    pctBytes (bytes.flatMap (fun b => ['%', hexCh (b / 16), hexCh (b % 16)]) ++ rest) =
      (pctBytes rest).map (fun l => bytes ++ l) := by
  induction bytes with
  | nil =>
    cases h : pctBytes rest with
    | none => simp [h]
    | some l => simp [h]
  | cons b bs ih =>
    have hb256 : b < 256 := hb b (List.mem_cons_self b bs)
    rw [List.flatMap_cons, List.append_assoc]
    show pctBytes ('%' :: hexCh (b / 16) :: hexCh (b % 16) ::
      (bs.flatMap (fun b => ['%', hexCh (b / 16), hexCh (b % 16)]) ++ rest)) = _
    rw [pctBytes_cons, if_pos rfl]
    dsimp only
    rw [hexChVal_hexCh (b / 16) (by omega), hexChVal_hexCh (b % 16) (by omega)]
    dsimp only
    rw [ih (fun x hx => hb x (List.mem_cons_of_mem b hx))]
    have he : b / 16 * 16 + b % 16 = b := by omega
    rw [he]
    cases pctBytes rest <;> rfl

theorem pctBytes_pctEncCh (c : Char) (rest : List Char) :
    pctBytes (pctEncCh c ++ rest) = (pctBytes rest).map (fun l => utf8Enc c.toNat ++ l) := by
  unfold pctEncCh
  by_cases h : isUnreserved c
  · rw [if_pos h]
    show pctBytes (c :: rest) = _
    rw [pctBytes_cons, if_neg ?hpct]
    case hpct =>
      intro hc
      rw [hc] at h
      exact absurd h (by decide)
  · rw [if_neg h]
    exact pctBytes_escapes _ (utf8Enc_lt _ (char_toNat_lt c)) rest

theorem pctBytes_pctEncode (l : List Char) :
    pctBytes (l.flatMap pctEncCh) = some (l.flatMap (fun c => utf8Enc c.toNat)) := by
  induction l with
  | nil => rfl
  | cons c cs ih =>
    rw [List.flatMap_cons, pctBytes_pctEncCh, ih, List.flatMap_cons]
    rfl

theorem utf8Dec_flatMap (l : List Char) :
    utf8Dec (l.flatMap (fun c => utf8Enc c.toNat)) = some (l.map Char.toNat) := by
  induction l with
  | nil => rfl
  | cons c cs ih =>
    rw [List.flatMap_cons, utf8Dec_enc _ (char_toNat_lt c), ih, List.map_cons]
    rfl

theorem pctDecode_pctEncode (s : String) : pctDecode (pctEncode s) = s := by
  show pctDecode ⟨s.data.flatMap pctEncCh⟩ = s
  unfold pctDecode
  show (match pctBytes (s.data.flatMap pctEncCh) with
    | none => (⟨s.data.flatMap pctEncCh⟩ : String)
    | some bytes =>
      match utf8Dec bytes with
      | none => (⟨s.data.flatMap pctEncCh⟩ : String)
      | some cps => ⟨cps.map Char.ofNat⟩) = s
  rw [pctBytes_pctEncode]
  dsimp only
  rw [utf8Dec_flatMap]
  show (⟨(s.data.map Char.toNat).map Char.ofNat⟩ : String) = s
  apply strEq_of_data
  show (s.data.map Char.toNat).map Char.ofNat = s.data
  rw [List.map_map]
  have hid : Char.ofNat ∘ Char.toNat = id := funext fun c => Char.ofNat_toNat c
  rw [hid, List.map_id]

theorem pctBytes_no_pct (l : List Char) (h : ∀ c ∈ l, c ≠ '%') :
    pctBytes l = some (l.flatMap (fun c => utf8Enc c.toNat)) := by
  induction l with
  | nil => rfl
  | cons c cs ih =>
    rw [pctBytes_cons, if_neg (h c (List.mem_cons_self c cs)),
      ih (fun x hx => h x (List.mem_cons_of_mem c hx)), List.flatMap_cons]
    rfl

theorem pctDecode_no_pct (s : String) (h : sContains s '%' = false) : pctDecode s = s := by
  unfold pctDecode
  show (match pctBytes s.data with
    | none => s
    | some bytes =>
      match utf8Dec bytes with
      | none => s
      | some cps => ⟨cps.map Char.ofNat⟩) = s
  rw [pctBytes_no_pct s.data (forall_of_contains_eq_false h)]
  dsimp only
  rw [utf8Dec_flatMap]
  show (⟨(s.data.map Char.toNat).map Char.ofNat⟩ : String) = s
  apply strEq_of_data
  show (s.data.map Char.toNat).map Char.ofNat = s.data
  rw [List.map_map]
  have hid : Char.ofNat ∘ Char.toNat = id := funext fun c => Char.ofNat_toNat c
  rw [hid, List.map_id]

theorem hexCh_unreserved : ∀ n < 16, isUnreserved (hexCh n) = true := by decide

theorem pctEncCh_mem (c : Char) :
    ∀ d ∈ pctEncCh c, isUnreserved d = true ∨ d = '%' := by
  intro d hd
  unfold pctEncCh at hd
  by_cases h : isUnreserved c
  · rw [if_pos h] at hd
    simp at hd
    subst hd
    left
    exact h
  · rw [if_neg h] at hd
    rw [List.mem_flatMap] at hd
    obtain ⟨b, hb, hdm⟩ := hd
    have hb256 : b < 256 := utf8Enc_lt _ (char_toNat_lt c) b hb
    simp [List.mem_cons] at hdm
    rcases hdm with h1 | h1 | h1
    · right; exact h1
    · left; subst h1; exact hexCh_unreserved _ (by omega)
    · left; subst h1; exact hexCh_unreserved _ (by omega)

theorem unreserved_not_sep (d : Char) (h : isUnreserved d = true) :
    d ≠ ',' ∧ d ≠ ':' ∧ isWs d = false := by
  have hnum := of_decide_eq_true h
  simp only [List.mem_cons, List.not_mem_nil, or_false] at hnum
  refine ⟨?_, ?_, ?_⟩
  · intro he
    subst he
    have : (',').toNat = 44 := by decide
    omega
  · intro he
    subst he
    have : (':').toNat = 58 := by decide
    omega
  · unfold isWs
    simp only [Bool.or_eq_false_iff, Bool.and_eq_false_iff, decide_eq_false_iff_not]
    omega

theorem pctEncode_chars (s : String) :
    ∀ d ∈ (pctEncode s).data, d ≠ ',' ∧ d ≠ ':' ∧ isWs d = false := by
  intro d hd
  have hd2 : d ∈ s.data.flatMap pctEncCh := hd
  rw [List.mem_flatMap] at hd2
  obtain ⟨c, _, hdm⟩ := hd2
  rcases pctEncCh_mem c d hdm with h | h
  · exact unreserved_not_sep d h
  · subst h
    refine ⟨by decide, by decide, by decide⟩

theorem pctEncode_no_comma (s : String) : sContains (pctEncode s) ',' = false :=
  contains_eq_false_of_forall (fun c hc => (pctEncode_chars s c hc).1)

theorem pctEncode_no_colon (s : String) : sContains (pctEncode s) ':' = false :=
  contains_eq_false_of_forall (fun c hc => (pctEncode_chars s c hc).2.1)

theorem sTrim_pctEncode (s : String) : sTrim (pctEncode s) = pctEncode s :=
  sTrim_no_ws _ (fun c hc => (pctEncode_chars s c hc).2.2)

theorem pctEncCh_ne_nil (c : Char) : pctEncCh c ≠ [] := by
  unfold pctEncCh
  split
  · simp
  · cases hb : utf8Enc c.toNat with
    | nil => exact absurd hb (utf8Enc_ne_nil c.toNat)
    | cons b bs => simp [hb]

theorem pctEncode_ne_empty (s : String) (h : s ≠ "") : pctEncode s ≠ "" := by
  intro he
  apply h
  apply strEq_of_data
  have h2 : s.data.flatMap pctEncCh = [] := congrArg String.data he
  cases hd : s.data with
  | nil => rfl
  | cons c cs =>
    rw [hd, List.flatMap_cons] at h2
    rcases List.append_eq_nil.mp h2 with ⟨h3, _⟩
    exact absurd h3 (pctEncCh_ne_nil c)

/-! ## Split and join lemmas -/

theorem splitCh_no_sep (sep : Char) (l : List Char) (h : ∀ c ∈ l, c ≠ sep) :
    splitCh sep l = [l] := by
  induction l with
  | nil => rfl
  | cons c cs ih =>
    unfold splitCh
    rw [if_neg (h c (List.mem_cons_self c cs)),
      ih (fun x hx => h x (List.mem_cons_of_mem c hx))]

theorem splitCh_sep_append (sep : Char) (a b : List Char) (ha : ∀ c ∈ a, c ≠ sep) :
    splitCh sep (a ++ sep :: b) = a :: splitCh sep b := by
  induction a with
  | nil =>
    show splitCh sep (sep :: b) = [] :: splitCh sep b
    conv_lhs => unfold splitCh
    rw [if_pos rfl]
  | cons c cs ih =>
    show splitCh sep (c :: (cs ++ sep :: b)) = (c :: cs) :: splitCh sep b
    conv_lhs => unfold splitCh
    rw [if_neg (ha c (List.mem_cons_self c cs)),
      ih (fun x hx => ha x (List.mem_cons_of_mem c hx))]

theorem splitCh_interCh (sep : Char) (parts : List (List Char)) (hne : parts ≠ [])
    (h : ∀ p ∈ parts, ∀ c ∈ p, c ≠ sep) :
    splitCh sep (interCh sep parts) = parts := by
  induction parts with
  | nil => exact absurd rfl hne
  | cons p ps ih =>
    cases ps with
    | nil => exact splitCh_no_sep sep p (h p (List.mem_cons_self p []))
    | cons q qs =>
      show splitCh sep (p ++ sep :: interCh sep (q :: qs)) = p :: (q :: qs)
      rw [splitCh_sep_append sep p _ (h p (List.mem_cons_self p (q :: qs))),
        ih (by simp) (fun x hx => h x (List.mem_cons_of_mem p hx))]

theorem sSplit_sInter (sep : Char) (parts : List String) (hne : parts ≠ [])
    (h : ∀ p ∈ parts, sContains p sep = false) :
    sSplit sep (sInter sep parts) = parts := by
  unfold sSplit sInter
  show ((splitCh sep (interCh sep (parts.map String.data))).map (fun l => (⟨l⟩ : String))) = parts
  rw [splitCh_interCh sep _ (by simpa using hne) ?hsep]
  case hsep =>
    intro p hp
    rw [List.mem_map] at hp
    obtain ⟨t, ht, rfl⟩ := hp
    exact forall_of_contains_eq_false (h t ht)
  rw [List.map_map]
  have hid : (fun (l : List Char) => (⟨l⟩ : String)) ∘ String.data = id := funext fun p => rfl
  rw [hid, List.map_id]

theorem data_append (a b : String) : (a ++ b).data = a.data ++ b.data := rfl

theorem sSplit_pair (sep : Char) (a b : String)
    (ha : sContains a sep = false) (hb : sContains b sep = false) :
    sSplit sep (a ++ ⟨[sep]⟩ ++ b) = [a, b] := by
  unfold sSplit
  show ((splitCh sep ((a ++ ⟨[sep]⟩ ++ b).data)).map (fun l => (⟨l⟩ : String))) = [a, b]
  have hd : (a ++ ⟨[sep]⟩ ++ b).data = a.data ++ sep :: b.data := by
    rw [data_append, data_append]
    simp
  rw [hd, splitCh_sep_append sep _ _ (forall_of_contains_eq_false ha),
    splitCh_no_sep sep _ (forall_of_contains_eq_false hb)]
  rfl

theorem interCh_chars (sep : Char) (parts : List (List Char)) :
    ∀ c ∈ interCh sep parts, c = sep ∨ ∃ p ∈ parts, c ∈ p := by
  induction parts with
  | nil => intro c hc; exact absurd hc (List.not_mem_nil c)
  | cons p ps ih =>
    cases ps with
    | nil =>
      intro c hc
      right
      exact ⟨p, List.mem_cons_self p [], hc⟩
    | cons q qs =>
      intro c hc
      have hc2 : c ∈ p ++ sep :: interCh sep (q :: qs) := hc
      rcases List.mem_append.mp hc2 with h1 | h1
      · right; exact ⟨p, List.mem_cons_self p (q :: qs), h1⟩
      · rcases List.mem_cons.mp h1 with h2 | h2
        · left; exact h2
        · rcases ih c h2 with h3 | ⟨r, hr, hcr⟩
          · left; exact h3
          · right; exact ⟨r, List.mem_cons_of_mem p hr, hcr⟩

theorem interCh_mem_of_part (sep : Char) (parts : List (List Char)) (p : List Char)
    (hp : p ∈ parts) (c : Char) (hc : c ∈ p) : c ∈ interCh sep parts := by
  induction parts with
  | nil => exact absurd hp (List.not_mem_nil p)
  | cons r rs ih =>
    cases rs with
    | nil =>
      rcases List.mem_cons.mp hp with h1 | h1
      · subst h1; exact hc
      · exact absurd h1 (List.not_mem_nil p)
    | cons q qs =>
      show c ∈ r ++ sep :: interCh sep (q :: qs)
      rcases List.mem_cons.mp hp with h1 | h1
      · subst h1
        exact List.mem_append.mpr (Or.inl hc)
      · exact List.mem_append.mpr (Or.inr (List.mem_cons_of_mem sep (ih h1)))

theorem interCh_mem_sep (sep : Char) (parts : List (List Char)) (h : 2 ≤ parts.length) :
    sep ∈ interCh sep parts := by
  cases parts with
  | nil => simp at h
  | cons p ps =>
    cases ps with
    | nil => simp at h
    | cons q qs =>
      show sep ∈ p ++ sep :: interCh sep (q :: qs)
      exact List.mem_append.mpr (Or.inr (List.mem_cons_self sep _))

/-! ## Codec roundtrip lemmas -/

theorem inferType_eq (s : String) :
    inferType s =
      (if pctDecode s = "true" then .vbool true
       else if pctDecode s = "false" then .vbool false
       else if pctDecode s = "[null]" then .vnull
       else if isNumericS (pctDecode s) then .vnum (numOf (pctDecode s))
       else .vstr (pctDecode s)) := rfl

theorem goodStr_elim (s : String) (h : goodStr s = true) :
    s ≠ "true" ∧ s ≠ "false" ∧ s ≠ "[null]" ∧ isNumericS s = false := by
  unfold goodStr at h
  simp only [Bool.not_eq_true', Bool.or_eq_false_iff, beq_eq_false_iff_ne, ne_eq] at h
  exact ⟨h.1.1.1, h.1.1.2, h.1.2, h.2⟩

theorem inferType_encodeValueC (p : Value) (h : goodPrimV p = true) :
    inferType (encodeValueC p) = p := by
  cases p with
  | vstr s =>
    show inferType (pctEncode s) = .vstr s
    rw [inferType_eq, pctDecode_pctEncode]
    obtain ⟨h1, h2, h3, h4⟩ := goodStr_elim s h
    rw [if_neg h1, if_neg h2, if_neg h3, if_neg (by rw [h4]; exact Bool.false_ne_true)]
  | vnum q =>
    show inferType (pctEncode (numToString q)) = .vnum q
    rw [inferType_eq, pctDecode_pctEncode]
    have hn : isDecimalB q = true := h
    rw [if_neg (numToString_ne q "true" 't' (by decide) (by decide)),
      if_neg (numToString_ne q "false" 'f' (by decide) (by decide)),
      if_neg (numToString_ne q "[null]" 'n' (by decide) (by decide)),
      if_pos (isNumericS_numToString q hn), numOf_numToString q hn]
  | vbool b =>
    cases b with
    | true =>
      show inferType (pctEncode "true") = .vbool true
      rw [inferType_eq, pctDecode_pctEncode, if_pos rfl]
    | false =>
      show inferType (pctEncode "false") = .vbool false
      rw [inferType_eq, pctDecode_pctEncode, if_neg (by decide), if_pos rfl]
  | vnull =>
    show inferType (pctEncode "[null]") = .vnull
    rw [inferType_eq, pctDecode_pctEncode, if_neg (by decide), if_neg (by decide), if_pos rfl]
  | vundef => exact absurd h (by decide)
  | varr xs => exact absurd h (by simp [goodPrimV])
  | vobj fs => exact absurd h (by simp [goodPrimV])

theorem encodeValueC_pct (v : Value) : ∃ t, encodeValueC v = pctEncode t := by
  cases v with
  | vstr s => exact ⟨s, rfl⟩
  | vnum q => exact ⟨numToString q, rfl⟩
  | vbool b => cases b with
    | true => exact ⟨"true", rfl⟩
    | false => exact ⟨"false", rfl⟩
  | vnull => exact ⟨"[null]", rfl⟩
  | vundef => exact ⟨"[null]", rfl⟩
  | varr xs => exact ⟨jsString (.varr xs), rfl⟩
  | vobj fs => exact ⟨"[object Object]", rfl⟩

theorem encodeValueC_no_comma (v : Value) : sContains (encodeValueC v) ',' = false := by
  obtain ⟨t, ht⟩ := encodeValueC_pct v
  rw [ht]
  exact pctEncode_no_comma t

theorem encodeValueC_no_colon (v : Value) : sContains (encodeValueC v) ':' = false := by
  obtain ⟨t, ht⟩ := encodeValueC_pct v
  rw [ht]
  exact pctEncode_no_colon t

theorem encodeValueC_chars (v : Value) :
    ∀ d ∈ (encodeValueC v).data, d ≠ ',' ∧ d ≠ ':' ∧ isWs d = false := by
  obtain ⟨t, ht⟩ := encodeValueC_pct v
  rw [ht]
  exact pctEncode_chars t

theorem encodeValueC_ne_empty (v : Value) (h : goodPrimV v = true) (hne : isEmptyStrV v = false) :
    encodeValueC v ≠ "" := by
  cases v with
  | vstr s =>
    show pctEncode s ≠ ""
    apply pctEncode_ne_empty
    intro he
    subst he
    exact absurd hne (by decide)
  | vnum q =>
    show pctEncode (numToString q) ≠ ""
    exact pctEncode_ne_empty _ (numToString_ne_empty q)
  | vbool b => cases b with
    | true => show pctEncode "true" ≠ ""; exact pctEncode_ne_empty _ (by decide)
    | false => show pctEncode "false" ≠ ""; exact pctEncode_ne_empty _ (by decide)
  | vnull => show pctEncode "[null]" ≠ ""; exact pctEncode_ne_empty _ (by decide)
  | vundef => exact absurd h (by decide)
  | varr xs => exact absurd h (by simp [goodPrimV])
  | vobj fs => exact absurd h (by simp [goodPrimV])

theorem decodeArrayC_encodeArrayC (xs : List Value) (hne : xs ≠ [])
    (h : xs.all goodPrimV = true) : decodeArrayC (encodeArrayC xs) = xs := by
  unfold decodeArrayC encodeArrayC
  rw [sSplit_sInter ',' _ (by simpa using hne) ?hcomma]
  case hcomma =>
    intro p hp
    rw [List.mem_map] at hp
    obtain ⟨v, hv, rfl⟩ := hp
    exact encodeValueC_no_comma v
  rw [List.map_map]
  have hpt : ∀ v ∈ xs, (inferType ∘ encodeValueC) v = id v := by
    intro v hv
    exact inferType_encodeValueC v (by
      rw [List.all_eq_true] at h
      exact h v hv)
  rw [List.map_congr_left hpt, List.map_id]

theorem colon_str_eq : (":" : String) = (⟨[':']⟩ : String) := rfl

theorem append_colon_chars (a b : String) (d : Char) (hd : d ∈ (a ++ ":" ++ b).data) :
    d ∈ a.data ∨ d = ':' ∨ d ∈ b.data := by
  rw [data_append, data_append] at hd
  rcases List.mem_append.mp hd with h1 | h1
  · rcases List.mem_append.mp h1 with h2 | h2
    · left; exact h2
    · right; left; simpa using h2
  · right; right; exact h1

theorem objPart_no_comma (k : String) (v : Value) :
    sContains (encodeValueC (.vstr k) ++ ":" ++ encodeValueC v) ',' = false := by
  apply contains_eq_false_of_forall
  intro d hd
  rcases append_colon_chars _ _ d hd with h1 | h1 | h1
  · exact (encodeValueC_chars _ d h1).1
  · subst h1; decide
  · exact (encodeValueC_chars _ d h1).1

theorem assocSet_fresh (acc : List (String × Value)) (k : String) (v : Value)
    (h : ∀ p ∈ acc, p.1 ≠ k) : assocSet acc k v = acc ++ [(k, v)] := by
  induction acc with
  | nil => rfl
  | cons p ps ih =>
    obtain ⟨k0, v0⟩ := p
    show assocSet ((k0, v0) :: ps) k v = (k0, v0) :: (ps ++ [(k, v)])
    conv_lhs => unfold assocSet
    rw [if_neg (h (k0, v0) (List.mem_cons_self _ _)),
      ih (fun x hx => h x (List.mem_cons_of_mem _ hx))]

theorem decodeObjStep (acc : List (String × Value)) (k : String) (v : Value)
    (hk : k ≠ "") (hv : goodPrimV v = true) (hvne : isEmptyStrV v = false) :
    (match sSplit ':' (encodeValueC (.vstr k) ++ ":" ++ encodeValueC v) with
      | k :: v :: _ =>
        if sTrim k ≠ "" ∧ v ≠ "" then assocSet acc (pctDecode (sTrim k)) (inferType v) else acc
      | _ => acc) = assocSet acc k v := by
  have hsp : sSplit ':' (encodeValueC (.vstr k) ++ ":" ++ encodeValueC v)
      = [encodeValueC (.vstr k), encodeValueC v] := by
    rw [colon_str_eq]
    exact sSplit_pair ':' _ _ (encodeValueC_no_colon _) (encodeValueC_no_colon _)
  rw [hsp]
  dsimp only
  have htr : sTrim (encodeValueC (.vstr k)) = encodeValueC (.vstr k) := by
    show sTrim (pctEncode k) = pctEncode k
    exact sTrim_pctEncode k
  rw [htr]
  rw [if_pos ⟨by show pctEncode k ≠ ""; exact pctEncode_ne_empty k hk,
    encodeValueC_ne_empty v hv hvne⟩]
  show assocSet acc (pctDecode (pctEncode k)) (inferType (encodeValueC v)) = assocSet acc k v
  rw [pctDecode_pctEncode, inferType_encodeValueC v hv]

theorem nodupKeys_elim (kv : String × Value) (rest : List (String × Value))
    (h : nodupKeys (kv :: rest) = true) :
    (∀ p ∈ rest, p.1 ≠ kv.1) ∧ nodupKeys rest = true := by
  obtain ⟨k, v⟩ := kv
  unfold nodupKeys at h
  rw [Bool.and_eq_true] at h
  refine ⟨?_, h.2⟩
  intro p hp he
  have h1 := h.1
  rw [Bool.not_eq_true', List.any_eq_false] at h1
  have := h1 p hp
  rw [he] at this
  simp at this

theorem decodeObjectC_fold (fs : List (String × Value)) (acc : List (String × Value))
    (hgood : ∀ kv ∈ fs, kv.1 ≠ "" ∧ goodPrimV kv.2 = true ∧ isEmptyStrV kv.2 = false)
    (hfresh : ∀ kv ∈ fs, ∀ p ∈ acc, p.1 ≠ kv.1)
    (hnd : nodupKeys fs = true) :
    (fs.map (fun kv => encodeValueC (.vstr kv.1) ++ ":" ++ encodeValueC kv.2)).foldl
      (fun acc part =>
        match sSplit ':' part with
        | k :: v :: _ =>
          if sTrim k ≠ "" ∧ v ≠ "" then assocSet acc (pctDecode (sTrim k)) (inferType v) else acc
        | _ => acc) acc = acc ++ fs := by
  induction fs generalizing acc with
  | nil => simp
  | cons kv rest ih =>
    obtain ⟨hk, hv, hvne⟩ := hgood kv (List.mem_cons_self _ _)
    obtain ⟨hsep, hndr⟩ := nodupKeys_elim kv rest hnd
    rw [List.map_cons, List.foldl_cons]
    have hstep := decodeObjStep acc kv.1 kv.2 hk hv hvne
    rw [hstep, assocSet_fresh acc kv.1 kv.2 (hfresh kv (List.mem_cons_self _ _))]
    rw [ih (acc ++ [kv]) (fun x hx => hgood x (List.mem_cons_of_mem _ hx)) ?hfr hndr]
    · rw [List.append_assoc]
      rfl
    case hfr =>
      intro x hx p hp
      rcases List.mem_append.mp hp with h1 | h1
      · exact hfresh x (List.mem_cons_of_mem _ hx) p h1
      · have hpk : p = kv := List.mem_singleton.mp h1
        rw [hpk]
        exact fun he => hsep x hx he.symm

theorem decodeObjectC_encodeObjectC (fs : List (String × Value)) (hne : fs ≠ [])
    (hnd : nodupKeys fs = true)
    (hgood : ∀ kv ∈ fs, kv.1 ≠ "" ∧ goodPrimV kv.2 = true ∧ isEmptyStrV kv.2 = false) :
    decodeObjectC (encodeObjectC fs) = fs := by
  unfold decodeObjectC encodeObjectC
  rw [sSplit_sInter ',' _ (by simpa using hne) ?hcomma]
  case hcomma =>
    intro p hp
    rw [List.mem_map] at hp
    obtain ⟨kv, hkv, rfl⟩ := hp
    exact objPart_no_comma kv.1 kv.2
  have := decodeObjectC_fold fs [] hgood (by intro kv _ p hp; exact absurd hp (List.not_mem_nil p)) hnd
  rw [List.nil_append] at this
  exact this

theorem filterMap_eq_self {α : Type} (fn : α → Option α) (l : List α)
    (h : ∀ a ∈ l, fn a = some a) : l.filterMap fn = l := by
  induction l with
  | nil => rfl
  | cons a as ih =>
    rw [List.filterMap_cons, h a (List.mem_cons_self a as),
      ih (fun x hx => h x (List.mem_cons_of_mem a hx))]

theorem isWFSortV_elim (v : Value) (h : isWFSortV v = true) :
    ∃ f o, v = sortV f o ∧ f ≠ "" ∧ isOrderType o = true := by
  unfold isWFSortV at h
  split at h
  · rename_i f o
    rw [Bool.and_eq_true] at h
    refine ⟨f, o, rfl, ?_, h.2⟩
    have h1 := h.1
    intro he
    rw [he] at h1
    simp at h1
  · simp at h

theorem isOrderType_ne_empty (o : String) (h : isOrderType o = true) : o ≠ "" := by
  unfold isOrderType at h
  rw [Bool.or_eq_true, beq_iff_eq, beq_iff_eq] at h
  rcases h with h | h <;> (rw [h]; decide)

theorem sortPart_eq (f o : String) :
    encodeValueC (getField (sortV f o) "field") ++ ":" ++ encodeValueC (getField (sortV f o) "order")
      = pctEncode f ++ ":" ++ pctEncode o := rfl

theorem sortPart_ne_empty (f o : String) :
    (pctEncode f ++ ":" ++ pctEncode o) ≠ "" := by
  intro he
  have h2 : ((pctEncode f ++ ":" ++ pctEncode o).data : List Char) = [] := congrArg String.data he
  rw [data_append, data_append] at h2
  rcases List.append_eq_nil.mp h2 with ⟨h3, _⟩
  rcases List.append_eq_nil.mp h3 with ⟨_, h4⟩
  exact absurd h4 (by decide)

theorem sortPart_has_colon (f o : String) :
    sContains (pctEncode f ++ ":" ++ pctEncode o) ':' = true := by
  unfold sContains
  rw [List.elem_iff]
  rw [data_append, data_append]
  exact List.mem_append.mpr (Or.inl (List.mem_append.mpr (Or.inr (by decide))))

theorem decodeSortStep (f o : String) (hf : f ≠ "") (ho : isOrderType o = true) :
    (match sSplit ':' (pctEncode f ++ ":" ++ pctEncode o) with
      | field :: order :: _ =>
        if sTrim field = "" ∨ order = "" then none
        else
          let f := pctDecode (sTrim field)
          let o := pctDecode order
          if f ≠ "" ∧ isOrderType o then some (sortV f o) else none
      | _ => none) = some (sortV f o) := by
  have hsp : sSplit ':' (pctEncode f ++ ":" ++ pctEncode o) = [pctEncode f, pctEncode o] := by
    rw [colon_str_eq]
    exact sSplit_pair ':' _ _ (pctEncode_no_colon f) (pctEncode_no_colon o)
  rw [hsp]
  dsimp only
  rw [sTrim_pctEncode]
  rw [if_neg (by
    intro hor
    rcases hor with h1 | h1
    · exact pctEncode_ne_empty f hf h1
    · exact pctEncode_ne_empty o (isOrderType_ne_empty o ho) h1)]
  show (if pctDecode (pctEncode f) ≠ "" ∧ isOrderType (pctDecode (pctEncode o)) = true
    then some (sortV (pctDecode (pctEncode f)) (pctDecode (pctEncode o))) else none)
      = some (sortV f o)
  rw [pctDecode_pctEncode, pctDecode_pctEncode]
  rw [if_pos ⟨hf, ho⟩]

theorem decodeSortsC_encodeSortsC (sorts : List Value) (hne : sorts ≠ [])
    (h : sorts.all isWFSortV = true) : decodeSortsC (encodeSortsC sorts) = sorts := by
  rw [List.all_eq_true] at h
  unfold decodeSortsC encodeSortsC
  rw [sSplit_sInter ',' _ (by simpa using hne) ?hcomma]
  case hcomma =>
    intro p hp
    rw [List.mem_map] at hp
    obtain ⟨s, hs, rfl⟩ := hp
    obtain ⟨f, o, rfl, hf, ho⟩ := isWFSortV_elim s (h s hs)
    rw [sortPart_eq]
    apply contains_eq_false_of_forall
    intro d hd
    rcases append_colon_chars _ _ d hd with h1 | h1 | h1
    · exact (pctEncode_chars f d h1).1
    · subst h1; decide
    · exact (pctEncode_chars o d h1).1
  rw [List.filter_eq_self.mpr ?hkeep]
  case hkeep =>
    intro p hp
    rw [List.mem_map] at hp
    obtain ⟨s, hs, rfl⟩ := hp
    obtain ⟨f, o, rfl, hf, ho⟩ := isWFSortV_elim s (h s hs)
    rw [sortPart_eq]
    refine decide_eq_true ⟨sortPart_ne_empty f o, ?_⟩
    rw [colon_str_eq] at *
    exact sortPart_has_colon f o
  rw [List.filterMap_map]
  apply filterMap_eq_self
  intro s hs
  obtain ⟨f, o, rfl, hf, ho⟩ := isWFSortV_elim s (h s hs)
  show (match sSplit ':' (encodeValueC (getField (sortV f o) "field") ++ ":" ++
      encodeValueC (getField (sortV f o) "order")) with
    | field :: order :: _ =>
      if sTrim field = "" ∨ order = "" then none
      else
        let f := pctDecode (sTrim field)
        let o := pctDecode order
        if f ≠ "" ∧ isOrderType o then some (sortV f o) else none
    | _ => none) = some (sortV f o)
  rw [sortPart_eq]
  exact decodeSortStep f o hf ho

theorem sTrim_encodeSortsC (sorts : List Value) (h : sorts.all isWFSortV = true) :
    sTrim (encodeSortsC sorts) = encodeSortsC sorts := by
  rw [List.all_eq_true] at h
  apply sTrim_no_ws
  intro c hc
  have hc2 : c ∈ interCh ','
      ((sorts.map (fun s => encodeValueC (getField s "field") ++ ":" ++
        encodeValueC (getField s "order"))).map String.data) := hc
  rcases interCh_chars ',' _ c hc2 with h1 | ⟨p, hp, hcp⟩
  · subst h1; decide
  · rw [List.map_map, List.mem_map] at hp
    obtain ⟨s, hs, rfl⟩ := hp
    obtain ⟨f, o, rfl, hf, ho⟩ := isWFSortV_elim s (h s hs)
    have hcp2 : c ∈ ((pctEncode f ++ ":" ++ pctEncode o)).data := by
      rw [← sortPart_eq]
      exact hcp
    rcases append_colon_chars _ _ c hcp2 with h1 | h1 | h1
    · exact (pctEncode_chars f c h1).2.2
    · subst h1; decide
    · exact (pctEncode_chars o c h1).2.2

/-! ## Query codec lemmas -/

theorem setParam_fresh (q : Query) (k v : String) (h : ∀ p ∈ q, p.1 ≠ k) :
    setParam q k v = q ++ [(k, v)] := by
  induction q with
  | nil => rfl
  | cons p ps ih =>
    obtain ⟨k0, v0⟩ := p
    show setParam ((k0, v0) :: ps) k v = (k0, v0) :: (ps ++ [(k, v)])
    conv_lhs => unfold setParam
    rw [if_neg (h (k0, v0) (List.mem_cons_self _ _)),
      ih (fun x hx => h x (List.mem_cons_of_mem _ hx))]

theorem getParam_cons_hit (k v : String) (rest : Query) :
    getParam ((k, v) :: rest) k = some v := by
  unfold getParam
  rw [List.find?_cons_of_pos]
  · rfl
  · show ((k, v).1 == k) = true
    simp

theorem getParam_cons_miss (k0 v0 k : String) (h : k0 ≠ k) (rest : Query) :
    getParam ((k0, v0) :: rest) k = getParam rest k := by
  unfold getParam
  rw [List.find?_cons_of_neg]
  show ¬ ((k0, v0).1 == k) = true
  simpa using h

theorem getParam_none (q : Query) (k : String) (h : ∀ p ∈ q, p.1 ≠ k) :
    getParam q k = none := by
  unfold getParam
  rw [List.find?_eq_none.mpr]
  · rfl
  · intro p hp
    simpa using h p hp

theorem getParam_append_right (l r : Query) (k : String) (h : ∀ p ∈ l, p.1 ≠ k) :
    getParam (l ++ r) k = getParam r k := by
  induction l with
  | nil => rfl
  | cons p ps ih =>
    obtain ⟨k0, v0⟩ := p
    rw [List.cons_append, getParam_cons_miss k0 v0 k (h (k0, v0) (List.mem_cons_self _ _)),
      ih (fun x hx => h x (List.mem_cons_of_mem _ hx))]

theorem posParam_numToString (x : ℚ) (hp : 0 < x) (hdec : isDecimalB x = true) :
    posParam (some (numToString x)) = some x := by
  unfold posParam
  dsimp only
  rw [if_pos ⟨isNumericS_numToString x hdec, by rw [numOf_numToString x hdec]; exact hp⟩,
    numOf_numToString x hdec]

theorem foldl_setParam_fresh (l : List (String × Value)) (q : Query)
    (hfresh : ∀ kv ∈ l, ∀ p ∈ q, p.1 ≠ kv.1)
    (hnd : nodupKeys l = true) :
    l.foldl (fun q2 kv => setParam q2 kv.1 (encodeFilterVal kv.2)) q =
      q ++ l.map (fun kv => (kv.1, encodeFilterVal kv.2)) := by
  induction l generalizing q with
  | nil => simp
  | cons kv rest ih =>
    obtain ⟨hsep, hndr⟩ := nodupKeys_elim kv rest hnd
    rw [List.foldl_cons]
    have h1 : setParam q kv.1 (encodeFilterVal kv.2) = q ++ [(kv.1, encodeFilterVal kv.2)] :=
      setParam_fresh q kv.1 _ (fun p hp => hfresh kv (List.mem_cons_self _ _) p hp)
    rw [h1, ih (q ++ [(kv.1, encodeFilterVal kv.2)]) ?hfr hndr, List.append_assoc]
    · rfl
    case hfr =>
      intro x hx p hp
      rcases List.mem_append.mp hp with h2 | h2
      · exact hfresh x (List.mem_cons_of_mem _ hx) p h2
      · have hpk : p = (kv.1, encodeFilterVal kv.2) := List.mem_singleton.mp h2
        rw [hpk]
        exact fun he => hsep x hx he.symm

theorem encodeQ_eq (s : FState) (hp : 0 < s.page) (hl : 0 < s.limit)
    (hres : ∀ kv ∈ s.filters,
      kv.1 ≠ "page" ∧ kv.1 ≠ "limit" ∧ kv.1 ≠ "search" ∧ kv.1 ≠ "sorts")
    (hnd : nodupKeys s.filters = true) :
    encodeQ s =
      ("page", numToString s.page) :: ("limit", numToString s.limit) ::
        ((if s.search = "" then [] else [("search", s.search)]) ++
          (if s.sorts.isEmpty then [] else [("sorts", encodeSortsC s.sorts)]) ++
          s.filters.map (fun kv => (kv.1, encodeFilterVal kv.2))) := by
  unfold encodeQ
  simp only []
  rw [if_pos hp, if_pos hl]
  have h1 : setParam [] "page" (numToString s.page) = [("page", numToString s.page)] := rfl
  rw [h1]
  have h2 : setParam [("page", numToString s.page)] "limit" (numToString s.limit)
      = [("page", numToString s.page), ("limit", numToString s.limit)] := rfl
  rw [h2]
  by_cases hs : s.search = "" <;> by_cases hso : s.sorts.isEmpty = true
  · rw [if_pos (show s.sorts.isEmpty = true from hso),
      if_pos (show s.sorts.isEmpty = true from hso),
      if_neg (show ¬ s.search ≠ "" from not_not_intro hs),
      if_pos (show s.search = "" from hs)]
    rw [foldl_setParam_fresh s.filters _ ?hfr1 hnd]
    case hfr1 =>
      intro kv hkv p hpq
      obtain ⟨r1, r2, r3, r4⟩ := hres kv hkv
      rcases List.mem_cons.mp hpq with h3 | h3
      · rw [h3]; exact fun he => r1 he.symm
      · have : p = ("limit", numToString s.limit) := List.mem_singleton.mp h3
        rw [this]; exact fun he => r2 he.symm
    rfl
  · rw [if_neg (show ¬ s.sorts.isEmpty = true from hso),
      if_neg (show ¬ s.sorts.isEmpty = true from hso),
      if_neg (show ¬ s.search ≠ "" from not_not_intro hs),
      if_pos (show s.search = "" from hs)]
    rw [show setParam [("page", numToString s.page), ("limit", numToString s.limit)]
        "sorts" (encodeSortsC s.sorts)
        = [("page", numToString s.page), ("limit", numToString s.limit),
          ("sorts", encodeSortsC s.sorts)] from rfl]
    rw [foldl_setParam_fresh s.filters _ ?hfr2 hnd]
    case hfr2 =>
      intro kv hkv p hpq
      obtain ⟨r1, r2, r3, r4⟩ := hres kv hkv
      rcases List.mem_cons.mp hpq with h3 | h3
      · rw [h3]; exact fun he => r1 he.symm
      · rcases List.mem_cons.mp h3 with h4 | h4
        · rw [h4]; exact fun he => r2 he.symm
        · have : p = ("sorts", encodeSortsC s.sorts) := List.mem_singleton.mp h4
          rw [this]; exact fun he => r4 he.symm
    rfl
  · rw [if_pos (show s.sorts.isEmpty = true from hso),
      if_pos (show s.sorts.isEmpty = true from hso),
      if_pos (show s.search ≠ "" from hs),
      if_neg (show ¬ s.search = "" from hs)]
    rw [show setParam [("page", numToString s.page), ("limit", numToString s.limit)]
        "search" s.search
        = [("page", numToString s.page), ("limit", numToString s.limit),
          ("search", s.search)] from rfl]
    rw [foldl_setParam_fresh s.filters _ ?hfr3 hnd]
    case hfr3 =>
      intro kv hkv p hpq
      obtain ⟨r1, r2, r3, r4⟩ := hres kv hkv
      rcases List.mem_cons.mp hpq with h3 | h3
      · rw [h3]; exact fun he => r1 he.symm
      · rcases List.mem_cons.mp h3 with h4 | h4
        · rw [h4]; exact fun he => r2 he.symm
        · have : p = ("search", s.search) := List.mem_singleton.mp h4
          rw [this]; exact fun he => r3 he.symm
    rfl
  · rw [if_neg (show ¬ s.sorts.isEmpty = true from hso),
      if_neg (show ¬ s.sorts.isEmpty = true from hso),
      if_pos (show s.search ≠ "" from hs),
      if_neg (show ¬ s.search = "" from hs)]
    rw [show setParam [("page", numToString s.page), ("limit", numToString s.limit)]
        "search" s.search
        = [("page", numToString s.page), ("limit", numToString s.limit),
          ("search", s.search)] from rfl]
    rw [show setParam [("page", numToString s.page), ("limit", numToString s.limit),
        ("search", s.search)] "sorts" (encodeSortsC s.sorts)
        = [("page", numToString s.page), ("limit", numToString s.limit),
          ("search", s.search), ("sorts", encodeSortsC s.sorts)] from rfl]
    rw [foldl_setParam_fresh s.filters _ ?hfr4 hnd]
    case hfr4 =>
      intro kv hkv p hpq
      obtain ⟨r1, r2, r3, r4⟩ := hres kv hkv
      rcases List.mem_cons.mp hpq with h3 | h3
      · rw [h3]; exact fun he => r1 he.symm
      · rcases List.mem_cons.mp h3 with h4 | h4
        · rw [h4]; exact fun he => r2 he.symm
        · rcases List.mem_cons.mp h4 with h5 | h5
          · rw [h5]; exact fun he => r3 he.symm
          · have : p = ("sorts", encodeSortsC s.sorts) := List.mem_singleton.mp h5
            rw [this]; exact fun he => r4 he.symm
    rfl

theorem decodeQ_page_eq (q : Query) :
    (decodeQ q).page = (posParam (getParam q "page")).getD 0 := rfl

theorem decodeQ_limit_eq (q : Query) :
    (decodeQ q).limit = (posParam (getParam q "limit")).getD 0 := rfl

theorem decodeQ_sorts_eq (q : Query) :
    (decodeQ q).sorts =
      match getParam q "sorts" with
      | some v => decodeSortsC (sTrim v)
      | none => [] := rfl

theorem decodeQ_filters_eq (q : Query) :
    (decodeQ q).filters =
      q.foldl
        (fun acc kv =>
          if reservedKeys.contains kv.1 then acc
          else
            let f := sTrim (pctDecode kv.1)
            if f ≠ "" then
              if sContains kv.2 ',' ∧ ¬ sContains kv.2 ':' then
                assocSet acc f (.varr (decodeArrayC kv.2))
              else if sContains kv.2 ':' then assocSet acc f (.vobj (decodeObjectC kv.2))
              else assocSet acc f (inferType kv.2)
            else acc)
        [] := rfl

theorem goodKeyStr_elim (k : String) (h : goodKeyStr k = true) :
    k ≠ "" ∧ reservedKeys.contains k = false ∧ sContains k '%' = false ∧ sTrim k = k := by
  unfold goodKeyStr at h
  simp only [Bool.and_eq_true, Bool.not_eq_true'] at h
  obtain ⟨⟨⟨h1, h2⟩, h3⟩, h4⟩ := h
  exact ⟨by simpa using h1, h2, h3, by simpa using h4⟩

theorem reserved_elim (k : String) (h : reservedKeys.contains k = false) :
    k ≠ "page" ∧ k ≠ "limit" ∧ k ≠ "search" ∧ k ≠ "sorts" := by
  rw [← Bool.not_eq_true, List.elem_iff] at h
  unfold reservedKeys at h
  simp only [List.mem_cons, List.not_mem_nil, or_false, not_or] at h
  exact h

theorem encodeArrayC_has_comma (xs : List Value) (h2 : 2 ≤ xs.length) :
    sContains (encodeArrayC xs) ',' = true := by
  unfold sContains encodeArrayC
  rw [List.elem_iff]
  show ',' ∈ interCh ',' ((xs.map encodeValueC).map String.data)
  apply interCh_mem_sep
  simpa using h2

theorem encodeArrayC_no_colon (xs : List Value) : sContains (encodeArrayC xs) ':' = false := by
  apply contains_eq_false_of_forall
  intro d hd
  have hd2 : d ∈ interCh ',' ((xs.map encodeValueC).map String.data) := hd
  rcases interCh_chars ',' _ d hd2 with h1 | ⟨p, hp, hdp⟩
  · subst h1; decide
  · rw [List.map_map, List.mem_map] at hp
    obtain ⟨v, hv, rfl⟩ := hp
    exact (encodeValueC_chars v d hdp).2.1

theorem encodeObjectC_has_colon (fs : List (String × Value)) (hne : fs ≠ []) :
    sContains (encodeObjectC fs) ':' = true := by
  unfold sContains encodeObjectC
  rw [List.elem_iff]
  show ':' ∈ interCh ','
    ((fs.map (fun kv => encodeValueC (.vstr kv.1) ++ ":" ++ encodeValueC kv.2)).map String.data)
  cases fs with
  | nil => exact absurd rfl hne
  | cons kv rest =>
    apply interCh_mem_of_part ',' _
      ((encodeValueC (.vstr kv.1) ++ ":" ++ encodeValueC kv.2).data)
      (by rw [List.map_cons, List.map_cons]; exact List.mem_cons_self _ _)
    rw [data_append, data_append]
    exact List.mem_append.mpr (Or.inl (List.mem_append.mpr (Or.inr (by decide))))

theorem goodEntryVal_obj_elim (fs : List (String × Value))
    (h : goodEntryVal (.vobj fs) = true) :
    fs ≠ [] ∧ nodupKeys fs = true ∧
      ∀ kv ∈ fs, kv.1 ≠ "" ∧ goodPrimV kv.2 = true ∧ isEmptyStrV kv.2 = false := by
  unfold goodEntryVal at h
  rw [Bool.and_eq_true, Bool.and_eq_true] at h
  obtain ⟨⟨h1, h2⟩, h3⟩ := h
  refine ⟨by simpa using h1, h2, ?_⟩
  rw [List.all_eq_true] at h3
  intro kv hkv
  have h4 := h3 kv hkv
  rw [Bool.and_eq_true, Bool.and_eq_true] at h4
  obtain ⟨⟨h5, h6⟩, h7⟩ := h4
  exact ⟨by simpa using h5, h6, by simpa using h7⟩

theorem decodeF_step_filter (acc : List (String × Value)) (k : String) (v : Value)
    (hk : goodKeyStr k = true) (hv : goodEntryVal v = true) :
    (if reservedKeys.contains k then acc
      else
        let f := sTrim (pctDecode k)
        if f ≠ "" then
          if sContains (encodeFilterVal v) ',' ∧ ¬ sContains (encodeFilterVal v) ':' then
            assocSet acc f (.varr (decodeArrayC (encodeFilterVal v)))
          else if sContains (encodeFilterVal v) ':' then
            assocSet acc f (.vobj (decodeObjectC (encodeFilterVal v)))
          else assocSet acc f (inferType (encodeFilterVal v))
        else acc) = assocSet acc k v := by
  obtain ⟨hk1, hk2, hk3, hk4⟩ := goodKeyStr_elim k hk
  rw [if_neg (by rw [hk2]; exact Bool.false_ne_true), pctDecode_no_pct k hk3, hk4]
  show (if k ≠ "" then
      if sContains (encodeFilterVal v) ',' ∧ ¬ sContains (encodeFilterVal v) ':' then
        assocSet acc k (.varr (decodeArrayC (encodeFilterVal v)))
      else if sContains (encodeFilterVal v) ':' then
        assocSet acc k (.vobj (decodeObjectC (encodeFilterVal v)))
      else assocSet acc k (inferType (encodeFilterVal v))
    else acc) = assocSet acc k v
  rw [if_pos hk1]
  cases v with
  | varr xs =>
    have hv2 := hv
    unfold goodEntryVal at hv2
    rw [Bool.and_eq_true] at hv2
    have hlen : 2 ≤ xs.length := of_decide_eq_true hv2.1
    have hall : xs.all goodPrimV = true := hv2.2
    have hne : xs ≠ [] := by
      intro he
      rw [he] at hlen
      simp at hlen
    show (if sContains (encodeArrayC xs) ',' ∧ ¬ sContains (encodeArrayC xs) ':' then
        assocSet acc k (.varr (decodeArrayC (encodeArrayC xs)))
      else if sContains (encodeArrayC xs) ':' then
        assocSet acc k (.vobj (decodeObjectC (encodeArrayC xs)))
      else assocSet acc k (inferType (encodeArrayC xs))) = assocSet acc k (.varr xs)
    rw [if_pos ⟨encodeArrayC_has_comma xs hlen,
      by rw [encodeArrayC_no_colon xs]; exact Bool.false_ne_true⟩,
      decodeArrayC_encodeArrayC xs hne hall]
  | vobj fs =>
    obtain ⟨hne, hnd, hgood⟩ := goodEntryVal_obj_elim fs hv
    show (if sContains (encodeObjectC fs) ',' ∧ ¬ sContains (encodeObjectC fs) ':' then
        assocSet acc k (.varr (decodeArrayC (encodeObjectC fs)))
      else if sContains (encodeObjectC fs) ':' then
        assocSet acc k (.vobj (decodeObjectC (encodeObjectC fs)))
      else assocSet acc k (inferType (encodeObjectC fs))) = assocSet acc k (.vobj fs)
    rw [if_neg (fun hcc => hcc.2 (encodeObjectC_has_colon fs hne)),
      if_pos (encodeObjectC_has_colon fs hne),
      decodeObjectC_encodeObjectC fs hne hnd hgood]
  | vstr sv =>
    have hp : goodPrimV (.vstr sv) = true := hv
    show (if sContains (encodeValueC (.vstr sv)) ',' ∧ ¬ sContains (encodeValueC (.vstr sv)) ':' then
        assocSet acc k (.varr (decodeArrayC (encodeValueC (.vstr sv))))
      else if sContains (encodeValueC (.vstr sv)) ':' then
        assocSet acc k (.vobj (decodeObjectC (encodeValueC (.vstr sv))))
      else assocSet acc k (inferType (encodeValueC (.vstr sv)))) = assocSet acc k (.vstr sv)
    rw [if_neg (fun hcc => absurd hcc.1 (by rw [encodeValueC_no_comma]; exact Bool.false_ne_true)),
      if_neg (by rw [encodeValueC_no_colon]; exact Bool.false_ne_true),
      inferType_encodeValueC _ hp]
  | vnum qv =>
    have hp : goodPrimV (.vnum qv) = true := hv
    show (if sContains (encodeValueC (.vnum qv)) ',' ∧ ¬ sContains (encodeValueC (.vnum qv)) ':' then
        assocSet acc k (.varr (decodeArrayC (encodeValueC (.vnum qv))))
      else if sContains (encodeValueC (.vnum qv)) ':' then
        assocSet acc k (.vobj (decodeObjectC (encodeValueC (.vnum qv))))
      else assocSet acc k (inferType (encodeValueC (.vnum qv)))) = assocSet acc k (.vnum qv)
    rw [if_neg (fun hcc => absurd hcc.1 (by rw [encodeValueC_no_comma]; exact Bool.false_ne_true)),
      if_neg (by rw [encodeValueC_no_colon]; exact Bool.false_ne_true),
      inferType_encodeValueC _ hp]
  | vbool bv =>
    have hp : goodPrimV (.vbool bv) = true := hv
    show (if sContains (encodeValueC (.vbool bv)) ',' ∧ ¬ sContains (encodeValueC (.vbool bv)) ':' then
        assocSet acc k (.varr (decodeArrayC (encodeValueC (.vbool bv))))
      else if sContains (encodeValueC (.vbool bv)) ':' then
        assocSet acc k (.vobj (decodeObjectC (encodeValueC (.vbool bv))))
      else assocSet acc k (inferType (encodeValueC (.vbool bv)))) = assocSet acc k (.vbool bv)
    rw [if_neg (fun hcc => absurd hcc.1 (by rw [encodeValueC_no_comma]; exact Bool.false_ne_true)),
      if_neg (by rw [encodeValueC_no_colon]; exact Bool.false_ne_true),
      inferType_encodeValueC _ hp]
  | vnull =>
    have hp : goodPrimV .vnull = true := hv
    show (if sContains (encodeValueC .vnull) ',' ∧ ¬ sContains (encodeValueC .vnull) ':' then
        assocSet acc k (.varr (decodeArrayC (encodeValueC .vnull)))
      else if sContains (encodeValueC .vnull) ':' then
        assocSet acc k (.vobj (decodeObjectC (encodeValueC .vnull)))
      else assocSet acc k (inferType (encodeValueC .vnull))) = assocSet acc k .vnull
    rw [if_neg (fun hcc => absurd hcc.1 (by rw [encodeValueC_no_comma]; exact Bool.false_ne_true)),
      if_neg (by rw [encodeValueC_no_colon]; exact Bool.false_ne_true),
      inferType_encodeValueC _ hp]
  | vundef => exact absurd hv (by decide)

theorem foldl_decodeF_reserved (l : Query) (acc : List (String × Value))
    (h : ∀ p ∈ l, reservedKeys.contains p.1 = true) :
    l.foldl
      (fun acc kv =>
        if reservedKeys.contains kv.1 then acc
        else
          let f := sTrim (pctDecode kv.1)
          if f ≠ "" then
            if sContains kv.2 ',' ∧ ¬ sContains kv.2 ':' then
              assocSet acc f (.varr (decodeArrayC kv.2))
            else if sContains kv.2 ':' then assocSet acc f (.vobj (decodeObjectC kv.2))
            else assocSet acc f (inferType kv.2)
          else acc)
      acc = acc := by
  induction l generalizing acc with
  | nil => rfl
  | cons p ps ih =>
    rw [List.foldl_cons]
    have hstep : (if reservedKeys.contains p.1 then acc
        else
          let f := sTrim (pctDecode p.1)
          if f ≠ "" then
            if sContains p.2 ',' ∧ ¬ sContains p.2 ':' then
              assocSet acc f (.varr (decodeArrayC p.2))
            else if sContains p.2 ':' then assocSet acc f (.vobj (decodeObjectC p.2))
            else assocSet acc f (inferType p.2)
          else acc) = acc := by
      rw [if_pos (h p (List.mem_cons_self _ _))]
    rw [hstep, ih acc (fun x hx => h x (List.mem_cons_of_mem _ hx))]

theorem foldl_decodeF_filters (l : List (String × Value)) (acc : List (String × Value))
    (hgood : ∀ kv ∈ l, goodKeyStr kv.1 = true ∧ goodEntryVal kv.2 = true)
    (hfresh : ∀ kv ∈ l, ∀ p ∈ acc, p.1 ≠ kv.1)
    (hnd : nodupKeys l = true) :
    (l.map (fun kv => (kv.1, encodeFilterVal kv.2))).foldl
      (fun acc kv =>
        if reservedKeys.contains kv.1 then acc
        else
          let f := sTrim (pctDecode kv.1)
          if f ≠ "" then
            if sContains kv.2 ',' ∧ ¬ sContains kv.2 ':' then
              assocSet acc f (.varr (decodeArrayC kv.2))
            else if sContains kv.2 ':' then assocSet acc f (.vobj (decodeObjectC kv.2))
            else assocSet acc f (inferType kv.2)
          else acc)
      acc = acc ++ l := by
  induction l generalizing acc with
  | nil => simp
  | cons kv rest ih =>
    obtain ⟨hgk, hgv⟩ := hgood kv (List.mem_cons_self _ _)
    obtain ⟨hsep, hndr⟩ := nodupKeys_elim kv rest hnd
    rw [List.map_cons, List.foldl_cons]
    have h1 : (fun (acc : List (String × Value)) (kv : String × String) =>
        if reservedKeys.contains kv.1 then acc
        else
          let f := sTrim (pctDecode kv.1)
          if f ≠ "" then
            if sContains kv.2 ',' ∧ ¬ sContains kv.2 ':' then
              assocSet acc f (.varr (decodeArrayC kv.2))
            else if sContains kv.2 ':' then assocSet acc f (.vobj (decodeObjectC kv.2))
            else assocSet acc f (inferType kv.2)
          else acc) acc (kv.1, encodeFilterVal kv.2) = acc ++ [kv] :=
      (decodeF_step_filter acc kv.1 kv.2 hgk hgv).trans
        (assocSet_fresh acc kv.1 kv.2 (hfresh kv (List.mem_cons_self _ _)))
    refine (congrArg
      (fun z => List.foldl _ z (rest.map (fun kv => (kv.1, encodeFilterVal kv.2)))) h1).trans ?_
    refine (ih (acc ++ [kv]) (fun x hx => hgood x (List.mem_cons_of_mem _ hx)) ?hfr hndr).trans ?_
    case hfr =>
      intro x hx p hp
      rcases List.mem_append.mp hp with h2 | h2
      · exact hfresh x (List.mem_cons_of_mem _ hx) p h2
      · have hpk : p = kv := List.mem_singleton.mp h2
        rw [hpk]
        exact fun he => hsep x hx he.symm
    rw [List.append_assoc]
    rfl

theorem goodFState_elim (s : FState) (h : goodFState s = true) :
    0 < s.page ∧ isDecimalB s.page = true ∧ 0 < s.limit ∧ isDecimalB s.limit = true ∧
      s.sorts.all isWFSortV = true ∧ nodupKeys s.filters = true ∧
      ∀ kv ∈ s.filters, goodKeyStr kv.1 = true ∧ goodEntryVal kv.2 = true := by
  unfold goodFState at h
  simp only [Bool.and_eq_true, decide_eq_true_eq, List.all_eq_true] at h
  obtain ⟨⟨⟨⟨⟨⟨h1, h2⟩, h3⟩, h4⟩, h5⟩, h6⟩, h7⟩ := h
  refine ⟨h1, h2, h3, h4, ?_, h6, ?_⟩
  · rw [List.all_eq_true]
    exact h5
  · exact h7

/-! ## Signature claims -/

theorem signCalc_nested_arr_perm (pre post : List (String × Value)) (key : String)
    {xs ys : List Value} (h : xs.Perm ys) :
    signCalc (.vobj (pre ++ (key, .varr xs) :: post))
      = signCalc (.vobj (pre ++ (key, .varr ys) :: post)) := by
  unfold signCalc
  have hfl : flatten (.vobj (pre ++ (key, .varr xs) :: post)) ""
      = flatten (.vobj (pre ++ (key, .varr ys) :: post)) "" := by
    rw [flatten_vobj, flatten_vobj]
    apply sortTokens_congr
    rw [flatItems_eq_flatMap, flatItems_eq_flatMap, List.flatMap_append, List.flatMap_append,
      List.flatMap_cons, List.flatMap_cons]
    apply List.Perm.append_left
    apply List.Perm.append
    · show (flatArrEls xs (extKey "" key)).Perm (flatArrEls ys (extKey "" key))
      exact flatArrEls_perm_right _ h
    · exact List.Perm.refl _
  rw [hfl]

/-- C5: for any two map-like values holding the same key/value entries
and differing only in the insertion order of keys, at any nesting depth,
the signer's digests agree. -/
theorem c5_sign_key_order_independent (a b : Value) (h : KeyPerm a b) :
    signCalc a = signCalc b :=
  signCalc_keyPerm h

/-- Witness for C5 at a concrete two-level reordering. -/
theorem c5_sign_key_order_independent_witness : signCalc kpA = signCalc kpB := by
  apply c5_sign_key_order_independent
  refine ⟨[("x", .vobj [("b", .vnum 2), ("a", .vnum 1)]), ("y", .vstr "s")], ?_, ?_⟩
  · refine ⟨rfl, ?_, rfl, rfl, trivial⟩
    exact ⟨[("a", .vnum 1), ("b", .vnum 2)], ⟨rfl, rfl, rfl, rfl, trivial⟩,
      List.Perm.swap _ _ _⟩
  · exact List.Perm.swap _ _ _

/-- C7: the signer distinguishes the element order of a top-level
array: `sign([1,2]) ≠ sign([2,1])` (their flattenings carry distinct
index paths, and the two SHA-256 digests differ). -/
theorem c7_sign_top_array_sensitive :
    signCalc (.varr [.vnum 1, .vnum 2]) ≠ signCalc (.varr [.vnum 2, .vnum 1]) := by
  decide

/-- C6: permuting the elements of a nested array (scalars or
sub-objects alike) leaves the digest unchanged, and applying a permuted
sorts list to a committed store changes nothing and fires no
callback. -/
theorem c6_nested_array_order_insensitive :
    (∀ (pre post : List (String × Value)) (key : String) (xs ys : List Value), xs.Perm ys →
        signCalc (.vobj (pre ++ (key, .varr xs) :: post))
          = signCalc (.vobj (pre ++ (key, .varr ys) :: post))) ∧
      ∀ (stb : StorablesOpt) (s : Stats) (ys : List Value),
        s.locked = false → s.sign = signCalc (paramsOf s) → s.sorts.Perm ys →
          applyF true stb s (sortsInput (.varr ys))
            = ⟨{ s with sorts := ys }, false, true, false, []⟩ := by
  constructor
  · intro pre post key xs ys h
    exact signCalc_nested_arr_perm pre post key h
  · intro stb s ys hlk hsg hperm
    have hm : mergeFields s (sortsInput (.varr ys)) = { s with sorts := ys } := rfl
    have harg1 : paramsOf { s with sorts := ys }
        = .vobj ([("page", .vnum s.page), ("limit", .vnum s.limit), ("search", .vstr s.search)]
            ++ ("sorts", .varr ys) :: [("filters", .vobj s.filters)]) := rfl
    have harg2 : paramsOf s
        = .vobj ([("page", .vnum s.page), ("limit", .vnum s.limit), ("search", .vstr s.search)]
            ++ ("sorts", .varr s.sorts) :: [("filters", .vobj s.filters)]) := rfl
    have hsig : signCalc (paramsOf { s with sorts := ys }) = signCalc (paramsOf s) := by
      rw [harg1, harg2]
      exact signCalc_nested_arr_perm _ _ _ hperm.symm
    have hbeq : (signCalc (paramsOf { s with sorts := ys })
        == Stats.sign { s with sorts := ys }) = true := by
      have hpr : Stats.sign { s with sorts := ys } = s.sign := rfl
      rw [hpr, hsig, hsg]
      exact beq_self_eq_true _
    unfold applyF
    rw [hlk]
    simp only [Bool.false_eq_true, if_false, if_true, hm]
    rw [if_pos hbeq]

/-- Witness for C6 at concrete inputs: a permuted scalar array under a
key, and a permuted sorts list applied to a committed store. -/
theorem c6_nested_array_order_insensitive_witness :
    signCalc (.vobj [("a", .varr [.vnum 1, .vnum 2])])
        = signCalc (.vobj [("a", .varr [.vnum 2, .vnum 1])]) ∧
      applyF true .all statsSorted (sortsInput (.varr sortsPairSw))
        = ⟨{ statsSorted with sorts := sortsPairSw }, false, true, false, []⟩ := by
  constructor
  · exact c6_nested_array_order_insensitive.1 [] [] "a" _ _ (List.Perm.swap _ _ _)
  · exact c6_nested_array_order_insensitive.2 .all statsSorted sortsPairSw rfl rfl
      (List.Perm.swap _ _ _)

/-! ## Store lemmas -/

theorem mergeFields_sign (s : Stats) (x : ApplyInput) : (mergeFields s x).sign = s.sign := by
  unfold mergeFields
  repeat' split
  all_goals rfl

theorem mergeFields_locked (s : Stats) (x : ApplyInput) :
    (mergeFields s x).locked = s.locked := by
  unfold mergeFields
  repeat' split
  all_goals rfl

theorem noZero_removeZero (fs : List (String × Value)) :
    noZeroFilters (removeZero fs) = true := by
  rw [noZeroFilters, List.all_eq_true]
  intro kv hkv
  rw [removeZero, List.mem_filter] at hkv
  exact hkv.2

theorem mergeFields_noZero (s : Stats) (x : ApplyInput)
    (h : noZeroFilters s.filters = true) :
    noZeroFilters (mergeFields s x).filters = true := by
  unfold mergeFields
  repeat' split
  all_goals first | exact h | exact noZero_removeZero _

theorem applyF_commit (stb : StorablesOpt) (s : Stats) (x : ApplyInput)
    (hlk : s.locked = false)
    (hne : (signCalc (paramsOf (mergeFields s x)) == (mergeFields s x).sign) = false) :
    applyF true stb s x
      = ⟨{ mergeFields s x with sign := signCalc (paramsOf (mergeFields s x)), locked := false },
          false, true, true, storeWrites stb (mergeFields s x)⟩ := by
  unfold applyF
  rw [hlk]
  simp only [Bool.false_eq_true, if_false]
  simp only [if_true]
  rw [hne]
  simp only [Bool.false_eq_true, if_false]

theorem applyF_silent (stb : StorablesOpt) (s : Stats) (x : ApplyInput)
    (hlk : s.locked = false)
    (heq : (signCalc (paramsOf (mergeFields s x)) == (mergeFields s x).sign) = true) :
    applyF true stb s x = ⟨{ mergeFields s x with locked := false }, false, true, false, []⟩ := by
  unfold applyF
  rw [hlk]
  simp only [Bool.false_eq_true, if_false]
  simp only [if_true]
  rw [if_pos heq]

theorem paramsOf_inj {a b : Stats} (h : paramsOf a = paramsOf b) :
    a.page = b.page ∧ a.limit = b.limit ∧ a.search = b.search ∧ a.sorts = b.sorts ∧
      a.filters = b.filters := by
  unfold paramsOf at h
  simp only [Value.vobj.injEq, List.cons.injEq, Prod.mk.injEq, Value.vnum.injEq,
    Value.vstr.injEq, Value.varr.injEq, and_true, true_and] at h
  tauto

theorem statsExt {a b : Stats} (h1 : a.sign = b.sign) (h2 : a.locked = b.locked)
    (h3 : a.page = b.page) (h4 : a.limit = b.limit) (h5 : a.search = b.search)
    (h6 : a.sorts = b.sorts) (h7 : a.filters = b.filters) : a = b := by
  cases a; cases b; simp_all

/-! ## Lock claims (C9, C10) -/

/-- C9: an `apply` that begins while the lock is held is dropped
entirely: no merge, no signing, no callback, no persistence, every
state field unchanged; it is returned resolved, not queued. -/
theorem c9_locked_apply_dropped (co : Bool) (stb : StorablesOpt) (s : Stats) (x : ApplyInput)
    (h : s.locked = true) : applyF co stb s x = ⟨s, true, true, false, []⟩ := by
  unfold applyF
  rw [h]
  simp

/-- Witness for C9 at a concrete locked store. -/
theorem c9_locked_apply_dropped_witness :
    applyF true .all lockedStats emptyInput = ⟨lockedStats, true, true, false, []⟩ :=
  c9_locked_apply_dropped true .all lockedStats emptyInput rfl

theorem applyF_not_dropped (co : Bool) (stb : StorablesOpt) (s : Stats) (y : ApplyInput)
    (h : s.locked = false) : (applyF co stb s y).dropped = false := by
  unfold applyF
  rw [h]
  simp only [Bool.false_eq_true, if_false]
  cases co
  · rfl
  · simp only [if_true]
    split <;> rfl

/-- C10: when the digest primitive is unavailable the `apply` promise
rejects (no callback, no persistence, signature untouched), the lock is
released on every path, and a subsequent `apply` on the resulting state
is not dropped by a stale lock. -/
theorem c10_digest_failure_rejects_and_unlocks (stb : StorablesOpt) (s : Stats)
    (x : ApplyInput) (hlk : s.locked = false) :
    (applyF false stb s x).ok = false ∧
      (applyF false stb s x).fired = false ∧
      (applyF false stb s x).stored = [] ∧
      (applyF false stb s x).stats.sign = s.sign ∧
      (∀ co : Bool, (applyF co stb s x).stats.locked = false) ∧
      ∀ (co2 : Bool) (y : ApplyInput),
        (applyF co2 stb (applyF false stb s x).stats y).dropped = false := by
  have hfail : applyF false stb s x
      = ⟨{ mergeFields s x with locked := false }, false, false, false, []⟩ := by
    unfold applyF
    rw [hlk]
    simp
  refine ⟨by rw [hfail], by rw [hfail], by rw [hfail], ?_, ?_, ?_⟩
  · rw [hfail]
    exact mergeFields_sign s x
  · intro co
    cases co
    · rw [hfail]
    · unfold applyF
      rw [hlk]
      simp only [Bool.false_eq_true, if_false]
      simp only [if_true]
      split <;> rfl
  · intro co2 y
    exact applyF_not_dropped co2 stb _ y (by rw [hfail])

/-- Witness for C10 at a concrete unlocked store. -/
theorem c10_digest_failure_rejects_and_unlocks_witness :
    (applyF false .all stats0 emptyInput).ok = false ∧
      (applyF false .all stats0 emptyInput).fired = false ∧
      (applyF false .all stats0 emptyInput).stored = [] ∧
      (applyF false .all stats0 emptyInput).stats.sign = stats0.sign ∧
      (∀ co : Bool, (applyF co .all stats0 emptyInput).stats.locked = false) ∧
      ∀ (co2 : Bool) (y : ApplyInput),
        (applyF co2 .all (applyF false .all stats0 emptyInput).stats y).dropped = false :=
  c10_digest_failure_rejects_and_unlocks .all stats0 emptyInput rfl

/-! ## Filters pruning (C8) -/

/-- C8: `apply` never leaves an `undefined`-valued or structurally
empty entry in `filters` (the invariant is preserved by every call),
and a literal `apply` of `{a: [], b: {}, c: "x"}` leaves exactly
`{c: "x"}`. -/
theorem c8_filters_zero_pruned :
    (∀ (co : Bool) (stb : StorablesOpt) (s : Stats) (x : ApplyInput),
        noZeroFilters s.filters = true →
          noZeroFilters (applyF co stb s x).stats.filters = true) ∧
      ∀ (co : Bool) (stb : StorablesOpt) (s : Stats), s.locked = false →
        (applyF co stb s (filtersInput (.vobj [("a", .varr []), ("b", .vobj []),
            ("c", .vstr "x")]))).stats.filters = [("c", .vstr "x")] := by
  constructor
  · intro co stb s x h
    unfold applyF
    split
    · exact h
    · have hmg := mergeFields_noZero s x h
      split
      · dsimp only
        split
        · exact hmg
        · exact hmg
      · exact hmg
  · intro co stb s hlk
    unfold applyF
    rw [hlk]
    simp only [Bool.false_eq_true, if_false]
    cases co
    · rfl
    · simp only [if_true]
      split <;> rfl

/-- Witness for C8 at a concrete store state. -/
theorem c8_filters_zero_pruned_witness :
    noZeroFilters (applyF false .all stats0 emptyInput).stats.filters = true ∧
      (applyF false .all stats0 (filtersInput (.vobj [("a", .varr []), ("b", .vobj []),
          ("c", .vstr "x")]))).stats.filters = [("c", .vstr "x")] :=
  ⟨c8_filters_zero_pruned.1 false .all stats0 emptyInput rfl,
    c8_filters_zero_pruned.2 false .all stats0 rfl⟩

/-! ## Sort well-formedness (C3) -/

theorem decodeSortsC_wf (enc : String) : ((decodeSortsC enc).all isWFSortV) = true := by
  rw [List.all_eq_true]
  intro v hv
  unfold decodeSortsC at hv
  rw [List.mem_filterMap] at hv
  obtain ⟨i, hi, hsome⟩ := hv
  rcases hsp : sSplit ':' i with _ | ⟨field, rest⟩
  · rw [hsp] at hsome
    simp at hsome
  · rcases rest with _ | ⟨order, rest2⟩
    · rw [hsp] at hsome
      simp at hsome
    · rw [hsp] at hsome
      dsimp only at hsome
      by_cases h1 : sTrim field = "" ∨ order = ""
      · rw [if_pos h1] at hsome
        exact absurd hsome (by simp)
      · rw [if_neg h1] at hsome
        by_cases h2 : pctDecode (sTrim field) ≠ "" ∧ isOrderType (pctDecode order) = true
        · rw [if_pos h2] at hsome
          have hv2 := Option.some.inj hsome
          subst hv2
          simp [isWFSortV, sortV, h2.1, h2.2]
        · rw [if_neg h2] at hsome
          exact absurd hsome (by simp)

/-- C3 amended: sort entries decoded from an encoded string
(`decodeSorts`, hence the `parseURL` input path) always carry a
non-empty field and an order in `{asc, desc}`; malformed fragments are
dropped there. (The `apply` and `parseResponse` paths store supplied
arrays wholesale, which is what the counterexample exhibits.) -/
theorem c3_url_decoded_sorts_wellformed :
    ∀ (enc : String) (q : Query),
      ((decodeSortsC enc).all isWFSortV) = true ∧ ((decodeQ q).sorts.all isWFSortV) = true := by
  intro enc q
  refine ⟨decodeSortsC_wf enc, ?_⟩
  have hs : (decodeQ q).sorts
      = match getParam q "sorts" with
        | some v => decodeSortsC (sTrim v)
        | none => [] := rfl
  rw [hs]
  cases getParam q "sorts" with
  | some v => exact decodeSortsC_wf (sTrim v)
  | none => rfl

/-- Counterexample to C3 as stated: `apply` stores a sorts array
wholesale, so a malformed entry (empty field, order `"up"`) supplied to
the `apply` input path ends up stored in the state. -/
theorem c3_malformed_sort_stored_counterexample :
    ((applyF true .all stats0 (sortsInput (.varr [badSort]))).stats.sorts.all isWFSortV)
      = false := by
  decide

/-! ## Apply idempotence (C1) -/

/-- C1: two consecutive `apply` calls whose arguments merge to the same
effective snapshot trigger the callback and the persistence on the
first call only: the second validates against the committed signature,
performs no side effect, and leaves the state unchanged — the callback
fires exactly once for the pair. -/
theorem c1_apply_pair_idempotent (stb : StorablesOpt) (s : Stats) (a b : ApplyInput)
    (hlk : s.locked = false)
    (hfresh : signCalc (paramsOf (mergeFields s a)) ≠ s.sign)
    (hsame : paramsOf (mergeFields (applyF true stb s a).stats b)
      = paramsOf (mergeFields s a)) :
    (applyF true stb s a).fired = true ∧
      (applyF true stb (applyF true stb s a).stats b).fired = false ∧
      (applyF true stb (applyF true stb s a).stats b).stored = [] ∧
      (applyF true stb (applyF true stb s a).stats b).stats = (applyF true stb s a).stats := by
  have hne : (signCalc (paramsOf (mergeFields s a)) == (mergeFields s a).sign) = false := by
    rw [beq_eq_false_iff_ne, mergeFields_sign]
    exact hfresh
  have h1 := applyF_commit stb s a hlk hne
  have hlk1 : (applyF true stb s a).stats.locked = false := by rw [h1]
  have hsg1 : (mergeFields (applyF true stb s a).stats b).sign
      = signCalc (paramsOf (mergeFields s a)) := by
    rw [mergeFields_sign, h1]
  have heq2 : (signCalc (paramsOf (mergeFields (applyF true stb s a).stats b))
      == (mergeFields (applyF true stb s a).stats b).sign) = true := by
    rw [hsame, hsg1]
    exact beq_self_eq_true _
  have h2 := applyF_silent stb (applyF true stb s a).stats b hlk1 heq2
  obtain ⟨hp, hl, hse, hso, hf⟩ := paramsOf_inj hsame
  refine ⟨by rw [h1], by rw [h2], by rw [h2], ?_⟩
  rw [h2, h1]
  rw [h1] at hsg1 hp hl hse hso hf
  exact statsExt hsg1 rfl hp hl hse hso hf

/-- Witness for C1: applying page `3` (a number) then page `"3"` (a
numeric string) — two raw inputs resolving to the same snapshot. -/
theorem c1_apply_pair_idempotent_witness :
    (applyF true .all stats0 (pageInput (.vnum 3))).fired = true ∧
      (applyF true .all (applyF true .all stats0 (pageInput (.vnum 3))).stats
          (pageInput (.vstr "3"))).fired = false ∧
      (applyF true .all (applyF true .all stats0 (pageInput (.vnum 3))).stats
          (pageInput (.vstr "3"))).stored = [] ∧
      (applyF true .all (applyF true .all stats0 (pageInput (.vnum 3))).stats
          (pageInput (.vstr "3"))).stats
        = (applyF true .all stats0 (pageInput (.vnum 3))).stats :=
  c1_apply_pair_idempotent .all stats0 (pageInput (.vnum 3)) (pageInput (.vstr "3"))
    rfl (by decide) (by rfl)

/-! ## Page/limit gating in `decode` (C4) -/

theorem mergeFields_page_of_notpos (s : Stats) (x : ApplyInput)
    (h : positiveSafeHolds x.page = false) : (mergeFields s x).page = s.page := by
  unfold mergeFields
  rw [h]
  simp only [Bool.false_eq_true, if_false]
  repeat' split
  all_goals rfl

theorem mergeFields_limit_of_notpos (s : Stats) (x : ApplyInput)
    (h : positiveSafeHolds x.limit = false) : (mergeFields s x).limit = s.limit := by
  unfold mergeFields
  rw [h]
  simp only [Bool.false_eq_true, if_false]
  repeat' split
  all_goals rfl

theorem applyF_stats_page (co : Bool) (stb : StorablesOpt) (s : Stats) (x : ApplyInput)
    (hlk : s.locked = false) : (applyF co stb s x).stats.page = (mergeFields s x).page := by
  unfold applyF
  rw [hlk]
  simp only [Bool.false_eq_true, if_false]
  cases co
  · rfl
  · simp only [if_true]
    split <;> rfl

theorem applyF_stats_limit (co : Bool) (stb : StorablesOpt) (s : Stats) (x : ApplyInput)
    (hlk : s.locked = false) : (applyF co stb s x).stats.limit = (mergeFields s x).limit := by
  unfold applyF
  rw [hlk]
  simp only [Bool.false_eq_true, if_false]
  cases co
  · rfl
  · simp only [if_true]
    split <;> rfl

/-- C4 amended: `decode` accepts a present `page`/`limit` parameter
exactly when it parses as a strictly positive *number* (not necessarily
an integer); otherwise the decoded field carries the zero default,
which `apply` treats as absent, so the caller's previous value is
retained when the decoded partial is applied. -/
theorem c4_page_limit_positive_gate (q : Query) :
    (∀ v : String, getParam q "page" = some v →
        ((isNumericS v = true ∧ 0 < numOf v) → (decodeQ q).page = numOf v) ∧
          (¬(isNumericS v = true ∧ 0 < numOf v) → (decodeQ q).page = 0 ∧
            ∀ (co : Bool) (stb : StorablesOpt) (s : Stats), s.locked = false →
              (applyF co stb s (inputOfState (decodeQ q))).stats.page = s.page)) ∧
      ∀ v : String, getParam q "limit" = some v →
        ((isNumericS v = true ∧ 0 < numOf v) → (decodeQ q).limit = numOf v) ∧
          (¬(isNumericS v = true ∧ 0 < numOf v) → (decodeQ q).limit = 0 ∧
            ∀ (co : Bool) (stb : StorablesOpt) (s : Stats), s.locked = false →
              (applyF co stb s (inputOfState (decodeQ q))).stats.limit = s.limit) := by
  have hpage : (decodeQ q).page = (posParam (getParam q "page")).getD 0 := rfl
  have hlimit : (decodeQ q).limit = (posParam (getParam q "limit")).getD 0 := rfl
  constructor
  · intro v hv
    constructor
    · intro hpos
      rw [hpage, hv]
      unfold posParam
      dsimp only
      rw [if_pos hpos]
      rfl
    · intro hneg
      have h0 : (decodeQ q).page = 0 := by
        rw [hpage, hv]
        unfold posParam
        dsimp only
        rw [if_neg hneg]
        rfl
      refine ⟨h0, ?_⟩
      intro co stb s hlk
      rw [applyF_stats_page co stb s _ hlk]
      apply mergeFields_page_of_notpos
      show positiveSafeHolds (.vnum (decodeQ q).page) = false
      rw [h0]
      decide
  · intro v hv
    constructor
    · intro hpos
      rw [hlimit, hv]
      unfold posParam
      dsimp only
      rw [if_pos hpos]
      rfl
    · intro hneg
      have h0 : (decodeQ q).limit = 0 := by
        rw [hlimit, hv]
        unfold posParam
        dsimp only
        rw [if_neg hneg]
        rfl
      refine ⟨h0, ?_⟩
      intro co stb s hlk
      rw [applyF_stats_limit co stb s _ hlk]
      apply mergeFields_limit_of_notpos
      show positiveSafeHolds (.vnum (decodeQ q).limit) = false
      rw [h0]
      decide

/-- Counterexample to C4 as stated: the parameter `page=2.5` decodes to
a strictly positive but non-integral number and is accepted, not
omitted. -/
theorem c4_noninteger_page_accepted_counterexample :
    (decodeQ [("page", "2.5")]).page = mkRat 5 2 ∧ (mkRat 5 2).den ≠ 1 := by
  constructor
  · rfl
  · decide

/-- Witness for C4 at a query carrying an accepted page and a rejected
limit. -/
theorem c4_page_limit_positive_gate_witness :
    (decodeQ [("page", "3"), ("limit", "0")]).page = numOf "3" ∧
      ((decodeQ [("page", "3"), ("limit", "0")]).limit = 0 ∧
        ∀ (co : Bool) (stb : StorablesOpt) (s : Stats), s.locked = false →
          (applyF co stb s (inputOfState (decodeQ [("page", "3"), ("limit", "0")]))).stats.limit
            = s.limit) :=
  ⟨((c4_page_limit_positive_gate [("page", "3"), ("limit", "0")]).1 "3" rfl).1 (by decide),
    ((c4_page_limit_positive_gate [("page", "3"), ("limit", "0")]).2 "0" rfl).2 (by decide)⟩


/-! ## Encode/decode round-trip (C2) -/

/-- C2 (amended): for every filter state whose `page` and `limit` are
strictly positive numbers with finite decimal expansions, whose sort
entries are well-formed records, and whose filters map has
pairwise-distinct, non-empty, non-reserved, percent-free,
whitespace-trimmed keys, each bound to a good primitive (boolean, `null`,
finite-decimal number, or a string not reading as `true`, `false`,
`[null]` or a numeral), to an array of at least two good primitives, or
to a non-empty map of good primitives under non-empty distinct keys with
non-empty values, `decode (encode s)` reproduces `page`, `limit`,
`sorts` and `filters` exactly. -/
theorem c2_encode_decode_roundtrip (s : FState) (h : goodFState s = true) :
    (decodeQ (encodeQ s)).page = s.page ∧ (decodeQ (encodeQ s)).limit = s.limit ∧
      (decodeQ (encodeQ s)).sorts = s.sorts ∧ (decodeQ (encodeQ s)).filters = s.filters := by
  obtain ⟨hp, hpd, hl, hld, hwf, hnd, hgood⟩ := goodFState_elim s h
  have hres : ∀ kv ∈ s.filters,
      kv.1 ≠ "page" ∧ kv.1 ≠ "limit" ∧ kv.1 ≠ "search" ∧ kv.1 ≠ "sorts" := by
    intro kv hkv
    exact reserved_elim kv.1 (goodKeyStr_elim kv.1 (hgood kv hkv).1).2.1
  rw [encodeQ_eq s hp hl hres hnd]
  refine ⟨?_, ?_, ?_, ?_⟩
  · rw [decodeQ_page_eq, getParam_cons_hit, posParam_numToString s.page hp hpd]
    rfl
  · rw [decodeQ_limit_eq, getParam_cons_miss _ _ _ (by decide), getParam_cons_hit,
      posParam_numToString s.limit hl hld]
    rfl
  · rw [decodeQ_sorts_eq]
    by_cases hso : s.sorts.isEmpty = true
    · have hnil : s.sorts = [] := by
        cases hs2 : s.sorts with
        | nil => rfl
        | cons a as => rw [hs2] at hso; simp at hso
      rw [getParam_none _ "sorts" ?hnone]
      · rw [hnil]
      case hnone =>
        intro p hp2
        rcases List.mem_cons.mp hp2 with h1 | h1
        · rw [h1]; exact (by decide : ("page" : String) ≠ "sorts")
        rcases List.mem_cons.mp h1 with h2 | h2
        · rw [h2]; exact (by decide : ("limit" : String) ≠ "sorts")
        rcases List.mem_append.mp h2 with h3 | h3
        · rcases List.mem_append.mp h3 with h4 | h4
          · by_cases hs : s.search = ""
            · rw [if_pos hs] at h4; exact absurd h4 (List.not_mem_nil p)
            · rw [if_neg hs] at h4
              have hps : p = ("search", s.search) := List.mem_singleton.mp h4
              rw [hps]; exact (by decide : ("search" : String) ≠ "sorts")
          · rw [if_pos hso] at h4; exact absurd h4 (List.not_mem_nil p)
        · rw [List.mem_map] at h3
          obtain ⟨kv, hkv, rfl⟩ := h3
          exact (hres kv hkv).2.2.2
    · have hne : s.sorts ≠ [] := by
        intro he
        rw [he] at hso
        exact hso rfl
      rw [getParam_cons_miss _ _ _ (by decide), getParam_cons_miss _ _ _ (by decide),
        List.append_assoc, getParam_append_right _ _ "sorts" ?hsk]
      case hsk =>
        intro p hp2
        by_cases hs : s.search = ""
        · rw [if_pos hs] at hp2; exact absurd hp2 (List.not_mem_nil p)
        · rw [if_neg hs] at hp2
          have hps : p = ("search", s.search) := List.mem_singleton.mp hp2
          rw [hps]; exact (by decide : ("search" : String) ≠ "sorts")
      rw [if_neg hso, List.singleton_append, getParam_cons_hit]
      show decodeSortsC (sTrim (encodeSortsC s.sorts)) = s.sorts
      rw [sTrim_encodeSortsC s.sorts hwf, decodeSortsC_encodeSortsC s.sorts hne hwf]
  · rw [decodeQ_filters_eq]
    have hassoc : ("page", numToString s.page) :: ("limit", numToString s.limit) ::
        ((if s.search = "" then ([] : Query) else [("search", s.search)]) ++
          (if s.sorts.isEmpty then ([] : Query) else [("sorts", encodeSortsC s.sorts)]) ++
          s.filters.map (fun kv => (kv.1, encodeFilterVal kv.2)))
        = ([("page", numToString s.page), ("limit", numToString s.limit)] ++
          ((if s.search = "" then ([] : Query) else [("search", s.search)]) ++
            (if s.sorts.isEmpty then ([] : Query) else [("sorts", encodeSortsC s.sorts)]))) ++
          s.filters.map (fun kv => (kv.1, encodeFilterVal kv.2)) := by
      simp [List.append_assoc]
    rw [hassoc]
    rw [List.foldl_append, List.foldl_append]
    rw [foldl_decodeF_reserved
      [("page", numToString s.page), ("limit", numToString s.limit)] [] ?hres1]
    rw [foldl_decodeF_reserved
      ((if s.search = "" then ([] : Query) else [("search", s.search)]) ++
        (if s.sorts.isEmpty then ([] : Query) else [("sorts", encodeSortsC s.sorts)])) [] ?hres2]
    case hres1 =>
      intro p hp2
      rcases List.mem_cons.mp hp2 with h1 | h1
      · rw [h1]; exact (by decide : reservedKeys.contains "page" = true)
      · have hps : p = ("limit", numToString s.limit) := List.mem_singleton.mp h1
        rw [hps]; exact (by decide : reservedKeys.contains "limit" = true)
    case hres2 =>
      intro p hp2
      rcases List.mem_append.mp hp2 with h3 | h3
      · by_cases hs : s.search = ""
        · rw [if_pos hs] at h3; exact absurd h3 (List.not_mem_nil p)
        · rw [if_neg hs] at h3
          have hps : p = ("search", s.search) := List.mem_singleton.mp h3
          rw [hps]; exact (by decide : reservedKeys.contains "search" = true)
      · by_cases hso : s.sorts.isEmpty = true
        · rw [if_pos hso] at h3; exact absurd h3 (List.not_mem_nil p)
        · rw [if_neg hso] at h3
          have hps : p = ("sorts", encodeSortsC s.sorts) := List.mem_singleton.mp h3
          rw [hps]; exact (by decide : reservedKeys.contains "sorts" = true)
    rw [foldl_decodeF_filters s.filters [] hgood
      (fun kv _ p hp2 => absurd hp2 (List.not_mem_nil p)) hnd]
    rw [List.nil_append]

/-- C2 counterexample: the state `{page: 1, limit: 20, filters: {a: [5]}}`
is built exclusively from representable compound shapes in the original
claim's sense (a flat array of primitives) and its scalar reads as a
numeral only inside the array, yet it does not round-trip: the singleton
array is encoded without a comma, so `decode` reclassifies the parameter
as the scalar number `5`. -/
theorem c2_singleton_array_collapse :
    (decodeQ (encodeQ ceState)).filters ≠ ceState.filters :=
  fun h => absurd (congrArg obsArr h) (by decide)

/-- Witness instantiating the amended C2 round-trip at a state exercising
every compound shape: a fractional limit, two sorts, an array filter (with
an embedded space, a null and a number), a map filter and a scalar filter
containing a colon. -/
theorem c2_encode_decode_roundtrip_witness :
    goodFState rtState = true ∧
      ((decodeQ (encodeQ rtState)).page = rtState.page ∧
        (decodeQ (encodeQ rtState)).limit = rtState.limit ∧
        (decodeQ (encodeQ rtState)).sorts = rtState.sorts ∧
        (decodeQ (encodeQ rtState)).filters = rtState.filters) :=
  ⟨by decide, c2_encode_decode_roundtrip rtState (by decide)⟩
